import Mathlib

/-!
Verification of the moggie keyword search engine core
(`src/moggie/search/engine.py`) against its natural-language
specification.

The development shallowly embeds the Python source into Lean:

* byte strings (`bytes`) become `Bytes := List Nat` (each entry one byte);
* `IntSet` values become `Finset Nat` (the spec: an ordered set of
  non-negative integers with union, intersection, difference and
  symmetric difference, compared by value);
* fallible Python code (statements that can raise) returns `Except Err`;
* the record store, the dumb codec, tag quoting and the hashed key map
  are not part of `src/` (only `engine.py` imports them), so they are
  modelled from the spec where marked, every such definition carries a
  doc comment saying exactly what was modelled.

Functions translated from `engine.py` keep the source names (camel-cased
where Python uses underscores).  All recursion is structural (fuel where
the Python loop is indexed by a byte offset), so every definition
evaluates inside the kernel and concrete runs can be checked by `decide`.
-/

namespace Moggie

/-- Byte strings: each element is one byte value (0 ≤ b < 256 for real data). -/
abbrev Bytes := List Nat

/-- Error kinds corresponding to the Python exceptions the embedded code can
raise.  `typeErr` models `TypeError` (notably the `raise None` in
`_empty_l1_idx`), the others model the like-named Python exceptions. -/
inductive Err where
  | typeErr
  | valueErr
  | keyErr
  | indexErr
  | permissionErr
  | structErr
  | storageErr (msg : String)
deriving DecidableEq, Repr

instance {ε α : Type} [DecidableEq ε] [DecidableEq α] : DecidableEq (Except ε α) := fun x y =>
  match x, y with
  | .ok a, .ok b => decidable_of_iff (a = b) (by simp)
  | .error a, .error b => decidable_of_iff (a = b) (by simp)
  | .ok _, .error _ => isFalse (by simp)
  | .error _, .ok _ => isFalse (by simp)

/-- Extract the payload of a successful computation (used only to name
concrete values in witnesses; `default` is never reached there). -/
def getOk {ε α : Type} [Inhabited α] : Except ε α → α
  | .ok a => a
  | .error _ => default

/-- Little-endian bytes of `n`, `w` bytes wide (`struct.pack` body). -/
def leBytes (w n : Nat) : Bytes :=
  match w with
  | 0 => []
  | w + 1 => n % 256 :: leBytes w (n / 256)

/-- Value of a little-endian byte string (`struct.unpack` body). -/
def leVal : Bytes → Nat
  | [] => 0
  | b :: rest => b + 256 * leVal rest

theorem leVal_leBytes (w n : Nat) (h : n < 256 ^ w) : leVal (leBytes w n) = n := by
  induction w generalizing n with
  | zero => simpa [leBytes, leVal] using (Nat.lt_one_iff.mp (by simpa using h)).symm
  | succ w ih =>
      have hdiv : n / 256 < 256 ^ w := by
        rw [Nat.div_lt_iff_lt_mul (by norm_num)]
        calc n < 256 ^ (w + 1) := h
        _ = 256 ^ w * 256 := by ring
      simp [leBytes, leVal, ih _ hdiv]
      omega

theorem leBytes_length (w n : Nat) : (leBytes w n).length = w := by
  induction w generalizing n with
  | zero => simp [leBytes]
  | succ w ih => simp [leBytes, ih]

/-- The header `struct.pack('<HHI', a, b, c)`: two 16-bit and one 32-bit
little-endian fields.  `struct.pack` raises when a value is out of range;
callers check ranges where that matters. -/
def packHHI (a b c : Nat) : Bytes :=
  leBytes 2 a ++ leBytes 2 b ++ leBytes 4 c

/-- The header read `struct.unpack('<HHI', blob[0:8])`; `none` models the
`struct.error` raised when fewer than 8 bytes remain. -/
def unpackHHI (blob : Bytes) : Option (Nat × Nat × Nat) :=
  if 8 ≤ blob.length then
    some (leVal (blob.take 2), leVal ((blob.drop 2).take 2), leVal ((blob.drop 4).take 4))
  else none

theorem packHHI_length (a b c : Nat) : (packHHI a b c).length = 8 := by
  simp [packHHI, leBytes_length]

theorem unpackHHI_packHHI (a b c : Nat) (rest : Bytes)
    (ha : a < 2 ^ 16) (hb : b < 2 ^ 16) (hc : c < 2 ^ 32) :
    unpackHHI (packHHI a b c ++ rest) = some (a, b, c) := by
  have e2a : leBytes 2 a = [a % 256, a / 256 % 256] := by simp [leBytes]
  have e2b : leBytes 2 b = [b % 256, b / 256 % 256] := by simp [leBytes]
  have e4c : leBytes 4 c =
      [c % 256, c / 256 % 256, c / 256 / 256 % 256, c / 256 / 256 / 256 % 256] := by
    simp [leBytes]
  have hva : leVal (leBytes 2 a) = a := leVal_leBytes 2 a (by norm_num at ha ⊢; omega)
  have hvb : leVal (leBytes 2 b) = b := leVal_leBytes 2 b (by norm_num at hb ⊢; omega)
  have hvc : leVal (leBytes 4 c) = c := leVal_leBytes 4 c (by norm_num at hc ⊢; omega)
  have hlen : 8 ≤ (packHHI a b c ++ rest).length := by
    rw [List.length_append, packHHI_length]
    omega
  have htake2 : (packHHI a b c ++ rest).take 2 = leBytes 2 a := by
    rw [packHHI, List.append_assoc, List.append_assoc]
    exact List.take_left' (leBytes_length 2 a)
  have hdrop2 : (packHHI a b c ++ rest).drop 2 = leBytes 2 b ++ (leBytes 4 c ++ rest) := by
    rw [packHHI, List.append_assoc, List.append_assoc]
    exact List.drop_left' (leBytes_length 2 a)
  have hdrop4 : (packHHI a b c ++ rest).drop 4 = leBytes 4 c ++ rest := by
    have hl : (leBytes 2 a ++ leBytes 2 b).length = 4 := by
      simp [leBytes_length]
    rw [packHHI, List.append_assoc]
    exact List.drop_left' hl
  unfold unpackHHI
  rw [if_pos hlen, htake2, hdrop2, hdrop4]
  rw [List.take_left' (leBytes_length 2 b), List.take_left' (leBytes_length 4 c)]
  rw [hva, hvb, hvc]

theorem unpackHHI_length_ge (blob : Bytes) (v : Nat × Nat × Nat)
    (h : unpackHHI blob = some v) : 8 ≤ blob.length := by
  unfold unpackHHI at h
  by_cases hc : 8 ≤ blob.length
  · exact hc
  · rw [if_neg hc] at h
    exact absurd h (by simp)

/-! ## The dumb codec, modelled

`util/dumbcode.py` is not under `src/` (only its callers are).
Modelled from the spec (sections 4.1 and 6): a serialized value is a tag
byte followed by a payload, the decoder infers the layout from the tag
byte, and the encoder may pick any layout for an IntSet as long as the
decoder reverses it.  The model fixes one deterministic layout: tag byte
73 followed by the ascending elements, each element written in unary
(`n` ones, then a zero); the Python `None` value (which the engine also
stores through `dumb_encode_bin`, via `set_comment` on an absent
keyword) is the single tag byte 110.  All engine-level properties proved
below depend only on the codec being a deterministic bijection onto its
image, which the spec requires of the real codec too. -/

/-- Ascending list of the elements of a finite set of naturals. -/
def isetElems (s : Finset Nat) : List Nat :=
  match s.max with
  | none => []
  | some m => (List.range (m + 1)).filter (· ∈ s)

theorem toFinset_isetElems (s : Finset Nat) : (isetElems s).toFinset = s := by
  unfold isetElems
  rcases hm : s.max with _ | m
  · simpa using (Finset.max_eq_bot.mp hm).symm
  · ext x
    simp only [List.mem_toFinset, List.mem_filter, List.mem_range, decide_eq_true_eq]
    constructor
    · rintro ⟨-, hx⟩; exact hx
    · intro hx
      refine ⟨?_, hx⟩
      have hle := Finset.le_max hx
      rw [hm] at hle
      rw [WithBot.some_eq_coe] at hle
      exact Nat.lt_succ_of_le (WithBot.coe_le_coe.mp hle)

/-- Unary payload of a list of naturals: each value is that many ones
followed by a zero. -/
def encNatList (l : List Nat) : Bytes :=
  l.flatMap (fun n => List.replicate n 1 ++ [0])

/-- Parse a unary payload; `cur` is the count of ones read so far. -/
def decodeUnary (cur : Nat) : Bytes → Option (List Nat)
  | [] => if cur = 0 then some [] else none
  | 0 :: rest => (decodeUnary 0 rest).map (cur :: ·)
  | 1 :: rest => decodeUnary (cur + 1) rest
  | _ :: _ => none

theorem decodeUnary_replicate (n cur : Nat) (rest : Bytes) :
    decodeUnary cur (List.replicate n 1 ++ rest) = decodeUnary (cur + n) rest := by
  induction n generalizing cur with
  | zero => simp
  | succ n ih =>
      rw [List.replicate_succ, List.cons_append]
      have h1 : decodeUnary cur (1 :: (List.replicate n 1 ++ rest)) =
          decodeUnary (cur + 1) (List.replicate n 1 ++ rest) := rfl
      rw [h1, ih]
      have h2 : cur + 1 + n = cur + (n + 1) := by omega
      rw [h2]

theorem decodeUnary_encNatList (l : List Nat) :
    decodeUnary 0 (encNatList l) = some l := by
  induction l with
  | nil => rfl
  | cons n t ih =>
      have he : encNatList (n :: t) = List.replicate n 1 ++ (0 :: encNatList t) := by
        simp [encNatList]
      rw [he, decodeUnary_replicate]
      simp [decodeUnary, ih]

/-- Modelled from the spec: `dumb_encode_bin` restricted to the values the
engine stores in posting-list buckets (an IntSet or Python `None`); the
`compress` argument is always `None` on the engine's bucket paths and is
therefore not modelled. -/
def dumbEncodeBin : Option (Finset Nat) → Bytes
  | none => [110]
  | some s => 73 :: encNatList (isetElems s)

/-- Modelled from the spec: `dumb_decode` on an IntSet/None blob; `none`
models a decode exception on malformed input. -/
def dumbDecode (blob : Bytes) : Option (Option (Finset Nat)) :=
  match blob with
  | [110] => some none
  | 73 :: rest => (decodeUnary 0 rest).map (fun l => some l.toFinset)
  | _ => none

theorem dumbDecode_dumbEncodeBin (v : Option (Finset Nat)) :
    dumbDecode (dumbEncodeBin v) = some v := by
  rcases v with _ | s
  · rfl
  · have h1 : dumbDecode (dumbEncodeBin (some s)) =
        (decodeUnary 0 (encNatList (isetElems s))).map (fun l => some l.toFinset) := by
      rw [dumbEncodeBin, dumbDecode.eq_def]
    rw [h1, decodeUnary_encNatList]
    simp [toFinset_isetElems]

/-! ## PostingListBucket (`engine.py` lines 73-178)

A bucket is a byte string holding packed `(keyword, comment, IntSet)`
triples: an 8-byte `<HHI` header (keyword length, comment length, IntSet
blob length), then the three byte fields.  The walk `_find_iset` is the
heart of every operation; it is embedded below with explicit fuel (the
Python loop advances `beg` by at least 8 per round, so
`blob.length + 1` rounds always suffice). -/

/-- Python truthiness of the `iset` variable (`None` and the empty IntSet
are falsy). -/
def isetTruthy : Option (Finset Nat) → Bool
  | none => false
  | some s => s ≠ ∅

/-- The loop of `PostingListBucket._find_iset`: walk the blob, collecting
the raw byte chunks of non-matching triples and the comment and decoded
IntSet of the last matching triple.  `none` models a raised exception
(`struct.error` on a header of fewer than 8 bytes, or a decode error). -/
def findIsetLoop (bkw : Bytes) :
    Nat → Bytes → List Bytes → Bytes → Option (Finset Nat) →
    Option (List Bytes × Bytes × Option (Finset Nat))
  | _, [], chunks, bcom, iset => some (chunks, bcom, iset)
  | 0, _ :: _, _, _, _ => none
  | fuel + 1, b :: bs, chunks, bcom, iset =>
      let blob := b :: bs
      match unpackHHI blob with
      | none => none
      | some (kwLn, cLn, isLn) =>
          let rest0 := blob.drop 8
          let kw := rest0.take kwLn
          let next := blob.drop (8 + kwLn + cLn + isLn)
          if kw = bkw then
            match dumbDecode (((rest0.drop kwLn).drop cLn).take isLn) with
            | none => none
            | some v =>
                findIsetLoop bkw fuel next chunks ((rest0.drop kwLn).take cLn) v
          else
            findIsetLoop bkw fuel next
              (chunks ++ [blob.take (8 + kwLn + cLn + isLn)]) bcom iset

/-- `PostingListBucket._find_iset` (lines 107-129): returns
`(chunks, bcomment, iset)`; the keyword is already encoded to bytes. -/
def pyFindIset (blob : Bytes) (bkw : Bytes) :
    Option (List Bytes × Bytes × Option (Finset Nat)) :=
  findIsetLoop bkw (blob.length + 1) blob [] [] none

/-- Tail of `PostingListBucket.set` (lines 161-172), after the chunk list
`ch` and the comment `bc0` found by the conditional re-find are known:
`bcomment = comment or bcomment or b''`, then the new triple is appended
unless both the comment and the IntSet are falsy, and the chunks are
joined.  The inner `none` models `struct.pack` raising on an
out-of-range field length. -/
def pySetCore (bkw : Bytes) (iset : Option (Finset Nat)) (comment : Bytes)
    (ch : List Bytes) (bc0 : Bytes) : Option Bytes :=
  let bc := if comment ≠ [] then comment else bc0
  let isetBlob := dumbEncodeBin iset
  if bc ≠ [] ∨ isetTruthy iset then
    if bkw.length < 2 ^ 16 ∧ bc.length < 2 ^ 16 ∧ isetBlob.length < 2 ^ 32 then
      some ((ch ++ [packHHI bkw.length bc.length isetBlob.length, bkw, bc, isetBlob]).flatten)
    else none
  else some ch.flatten

/-- `PostingListBucket.set` (lines 156-172).  Arguments mirror the Python
signature; `none` for `bkeyword`/`chunks` is the Python `None` default,
and an empty byte string or empty chunk list is falsy exactly as in
`if not (bkeyword and chunks)`: when that test fails the walk re-runs
and its comment is used, otherwise the comment found defaults to `b''`.
The result is the new blob, or `none` when the walk or `struct.pack`
raises. -/
def pySet (blob : Bytes) (bkw : Bytes) (iset : Option (Finset Nat))
    (comment : Bytes := []) (bkeyword : Option Bytes := none)
    (chunks : Option (List Bytes) := none) : Option Bytes :=
  match bkeyword, chunks with
  | some bk, some ch =>
      if bk = [] ∨ ch = [] then
        (pyFindIset blob bkw).bind (fun r => pySetCore bkw iset comment r.1 r.2.1)
      else pySetCore bkw iset comment ch []
  | _, _ => (pyFindIset blob bkw).bind (fun r => pySetCore bkw iset comment r.1 r.2.1)

/-- `PostingListBucket.remove` (lines 131-135): returns the new blob plus
the `(bcomment, iset)` pair the Python method returns. -/
def pyRemove (blob : Bytes) (bkw : Bytes) :
    Option (Bytes × Bytes × Option (Finset Nat)) :=
  (pyFindIset blob bkw).map (fun r =>
    (if r.2.2.isSome then r.1.flatten else blob, r.2.1, r.2.2))

/-- `PostingListBucket.add` (lines 137-147); `deleted` is the bucket's
`deleted` attribute (`none` = Python `None`). -/
def pyAdd (blob : Bytes) (bkw : Bytes) (ints : Finset Nat)
    (deleted : Option (Finset Nat)) : Option Bytes :=
  (pyFindIset blob bkw).bind (fun r =>
    let iset0 := r.2.2.getD ∅
    let iset1 := if ints ≠ ∅ then iset0 ∪ ints else iset0
    let iset2 := match deleted with
      | some d => iset1 \ d
      | none => iset1
    pySet blob bkw (some iset2) r.2.1 (some bkw) (some r.1))

/-- `PostingListBucket.set_comment` (lines 149-154). -/
def pySetComment (blob : Bytes) (bkw : Bytes) (comment : Bytes) : Option Bytes :=
  (pyFindIset blob bkw).bind (fun r =>
    pySet blob bkw r.2.2 comment (some bkw) (some r.1))

/-- `PostingListBucket.get` (lines 174-178) with `with_comment=True`:
the `(bcomment, iset)` pair. -/
def pyGetFull (blob : Bytes) (bkw : Bytes) : Option (Bytes × Option (Finset Nat)) :=
  (pyFindIset blob bkw).map (fun r => (r.2.1, r.2.2))

/-! ## Value view of a bucket

A well-formed bucket blob is the serialization of a list of
`(keyword, comment, IntSet-or-None)` value triples.  The lemmas below
relate the byte-level walk to list operations on the value view. -/

structure VTriple where
  kw : Bytes
  com : Bytes
  iv : Option (Finset Nat)
deriving DecidableEq

/-- Field sizes accepted by `struct.pack('<HHI', …)`. -/
def TripleOK (t : VTriple) : Prop :=
  t.kw.length < 2 ^ 16 ∧ t.com.length < 2 ^ 16 ∧ (dumbEncodeBin t.iv).length < 2 ^ 32

instance (t : VTriple) : Decidable (TripleOK t) := by
  unfold TripleOK
  infer_instance

def serTriple (t : VTriple) : Bytes :=
  packHHI t.kw.length t.com.length (dumbEncodeBin t.iv).length
    ++ t.kw ++ t.com ++ dumbEncodeBin t.iv

def serBucket (ts : List VTriple) : Bytes :=
  (ts.map serTriple).flatten

theorem serTriple_length (t : VTriple) :
    (serTriple t).length =
      8 + t.kw.length + t.com.length + (dumbEncodeBin t.iv).length := by
  simp [serTriple, packHHI_length]
  omega

theorem serBucket_cons (t : VTriple) (ts : List VTriple) :
    serBucket (t :: ts) = serTriple t ++ serBucket ts := by
  simp [serBucket]

/-- One unfolding step of the walk on a non-empty blob. -/
theorem findIsetLoop_step (bkw : Bytes) (fuel : Nat) (blob : Bytes)
    (ch : List Bytes) (bc : Bytes) (is : Option (Finset Nat)) (hne : blob ≠ []) :
    findIsetLoop bkw (fuel + 1) blob ch bc is =
      match unpackHHI blob with
      | none => none
      | some (kwLn, cLn, isLn) =>
          let rest0 := blob.drop 8
          let next := blob.drop (8 + kwLn + cLn + isLn)
          if rest0.take kwLn = bkw then
            match dumbDecode (((rest0.drop kwLn).drop cLn).take isLn) with
            | none => none
            | some v =>
                findIsetLoop bkw fuel next ch ((rest0.drop kwLn).take cLn) v
          else
            findIsetLoop bkw fuel next
              (ch ++ [blob.take (8 + kwLn + cLn + isLn)]) bc is := by
  cases blob with
  | nil => exact absurd rfl hne
  | cons b bs => rfl

/-- Reading one serialized triple from the head of the blob. -/
theorem findIsetLoop_serTriple (bkw : Bytes) (fuel : Nat) (t : VTriple)
    (rest : Bytes) (ch : List Bytes) (bc : Bytes) (is : Option (Finset Nat))
    (hOK : TripleOK t) :
    findIsetLoop bkw (fuel + 1) (serTriple t ++ rest) ch bc is =
      if t.kw = bkw then
        findIsetLoop bkw fuel rest ch t.com t.iv
      else
        findIsetLoop bkw fuel rest (ch ++ [serTriple t]) bc is := by
  obtain ⟨hk, hc, hi⟩ := hOK
  have hser : serTriple t ++ rest =
      packHHI t.kw.length t.com.length (dumbEncodeBin t.iv).length
        ++ (t.kw ++ (t.com ++ (dumbEncodeBin t.iv ++ rest))) := by
    simp [serTriple]
  have hne : serTriple t ++ rest ≠ [] := by
    intro h
    have := congrArg List.length h
    rw [List.length_append, serTriple_length] at this
    simp at this
  rw [findIsetLoop_step _ _ _ _ _ _ hne]
  rw [hser, unpackHHI_packHHI _ _ _ _ hk hc hi]
  have hdrop8 : (packHHI t.kw.length t.com.length (dumbEncodeBin t.iv).length
      ++ (t.kw ++ (t.com ++ (dumbEncodeBin t.iv ++ rest)))).drop 8 =
      t.kw ++ (t.com ++ (dumbEncodeBin t.iv ++ rest)) :=
    List.drop_left' (packHHI_length _ _ _)
  have hdropAll : (packHHI t.kw.length t.com.length (dumbEncodeBin t.iv).length
      ++ (t.kw ++ (t.com ++ (dumbEncodeBin t.iv ++ rest)))).drop
        (8 + t.kw.length + t.com.length + (dumbEncodeBin t.iv).length) = rest := by
    have h1 : serTriple t ++ rest =
        serTriple t ++ rest := rfl
    have h2 := @List.drop_left' _ (serTriple t) rest _ (serTriple_length t)
    rw [hser] at h2
    exact h2
  simp only [hdrop8, hdropAll]
  rw [List.take_left' rfl, List.drop_left' rfl, List.take_left' rfl,
    List.drop_left' rfl, List.take_left' rfl]
  by_cases hkw : t.kw = bkw
  · rw [if_pos hkw, dumbDecode_dumbEncodeBin]
    rw [hkw]
    simp
  · rw [if_neg hkw, ← hser, List.take_left' (serTriple_length t), if_neg hkw]

/-- Fuel does not matter once it exceeds the blob length. -/
theorem findIsetLoop_fuelinv (bkw : Bytes) (f1 f2 : Nat) (blob : Bytes)
    (ch : List Bytes) (bc : Bytes) (is : Option (Finset Nat))
    (h1 : blob.length < f1) (h2 : blob.length < f2) :
    findIsetLoop bkw f1 blob ch bc is = findIsetLoop bkw f2 blob ch bc is := by
  induction f1 generalizing f2 blob ch bc is with
  | zero => omega
  | succ f1 ih =>
      cases blob with
      | nil =>
          cases f2 with
          | zero => omega
          | succ f2 => rfl
      | cons b bs =>
          cases f2 with
          | zero => omega
          | succ f2 =>
              rw [findIsetLoop_step _ _ _ _ _ _ (by simp),
                findIsetLoop_step _ f2 _ _ _ _ (by simp)]
              rcases hu : unpackHHI (b :: bs) with _ | ⟨kwLn, cLn, isLn⟩
              · rfl
              · have hblen := unpackHHI_length_ge _ _ hu
                have hnext : ((b :: bs).drop (8 + kwLn + cLn + isLn)).length < f1 := by
                  rw [List.length_drop]
                  simp at hblen h1 ⊢
                  omega
                have hnext2 : ((b :: bs).drop (8 + kwLn + cLn + isLn)).length < f2 := by
                  rw [List.length_drop]
                  simp at hblen h2 ⊢
                  omega
                simp only
                rcases hdd : dumbDecode ((((b :: bs).drop 8).drop kwLn).drop cLn |>.take isLn)
                    with _ | v
                · by_cases hkw : ((b :: bs).drop 8).take kwLn = bkw
                  · rw [if_pos hkw, if_pos hkw]
                  · rw [if_neg hkw, if_neg hkw]
                    exact ih f2 _ _ _ _ hnext hnext2
                · by_cases hkw : ((b :: bs).drop 8).take kwLn = bkw
                  · rw [if_pos hkw, if_pos hkw]
                    exact ih f2 _ _ _ _ hnext hnext2
                  · rw [if_neg hkw, if_neg hkw]
                    exact ih f2 _ _ _ _ hnext hnext2

/-- The Python loop keeps the comment and IntSet of the LAST matching
triple; this fold is its list-level counterpart. -/
def bFold (ts : List VTriple) (bkw : Bytes) (acc : Bytes × Option (Finset Nat)) :
    Bytes × Option (Finset Nat) :=
  ts.foldl (fun a t => if t.kw = bkw then (t.com, t.iv) else a) acc

/-- Comment and IntSet as `_find_iset` reports them for `bkw`. -/
def bFind (ts : List VTriple) (bkw : Bytes) : Bytes × Option (Finset Nat) :=
  bFold ts bkw ([], none)

theorem bFold_cons (t : VTriple) (ts : List VTriple) (bkw : Bytes)
    (acc : Bytes × Option (Finset Nat)) :
    bFold (t :: ts) bkw acc = bFold ts bkw (if t.kw = bkw then (t.com, t.iv) else acc) := rfl

theorem findIsetLoop_serBucket (ts : List VTriple) (bkw : Bytes)
    (ch : List Bytes) (bc : Bytes) (is : Option (Finset Nat)) (fuel : Nat)
    (hOK : ∀ t ∈ ts, TripleOK t) (hfuel : (serBucket ts).length < fuel) :
    findIsetLoop bkw fuel (serBucket ts) ch bc is =
      some (ch ++ (ts.filter (fun t => t.kw ≠ bkw)).map serTriple, bFold ts bkw (bc, is)) := by
  induction ts generalizing ch bc is fuel with
  | nil =>
      cases fuel with
      | zero => simp [bFold, serBucket, findIsetLoop]
      | succ fuel => simp [bFold, serBucket, findIsetLoop]
  | cons t ts ih =>
      rw [serBucket_cons] at hfuel ⊢
      have hst : 8 ≤ (serTriple t).length := by
        rw [serTriple_length]; omega
      cases fuel with
      | zero =>
          rw [List.length_append] at hfuel
          omega
      | succ fuel =>
          rw [findIsetLoop_serTriple _ _ _ _ _ _ _ (hOK t (by simp))]
          have hnext : (serBucket ts).length < fuel := by
            rw [List.length_append] at hfuel
            omega
          have hOKt : ∀ x ∈ ts, TripleOK x := fun x hx => hOK x (by simp [hx])
          by_cases hkw : t.kw = bkw
          · rw [if_pos hkw, ih _ _ _ _ hOKt hnext, bFold_cons, if_pos hkw]
            have : (t :: ts).filter (fun x => x.kw ≠ bkw) =
                ts.filter (fun x => x.kw ≠ bkw) := by
              rw [List.filter_cons]
              simp [hkw]
            rw [this]
          · rw [if_neg hkw, ih _ _ _ _ hOKt hnext, bFold_cons, if_neg hkw]
            have : (t :: ts).filter (fun x => x.kw ≠ bkw) =
                t :: ts.filter (fun x => x.kw ≠ bkw) := by
              rw [List.filter_cons]
              simp [hkw]
            rw [this]
            simp

theorem pyFindIset_serBucket (ts : List VTriple) (bkw : Bytes)
    (hOK : ∀ t ∈ ts, TripleOK t) :
    pyFindIset (serBucket ts) bkw =
      some ((ts.filter (fun t => t.kw ≠ bkw)).map serTriple, bFind ts bkw) := by
  unfold pyFindIset bFind
  rw [findIsetLoop_serBucket ts bkw [] [] none _ hOK (by omega)]
  simp

theorem bFold_acc_cases (ts : List VTriple) (bkw : Bytes)
    (acc : Bytes × Option (Finset Nat)) :
    bFold ts bkw acc = acc ∨ ∃ t ∈ ts, bFold ts bkw acc = (t.com, t.iv) := by
  induction ts generalizing acc with
  | nil => exact Or.inl rfl
  | cons t ts ih =>
      rw [bFold_cons]
      by_cases hkw : t.kw = bkw
      · rw [if_pos hkw]
        rcases ih (t.com, t.iv) with h | ⟨u, hu, he⟩
        · exact Or.inr ⟨t, by simp, h⟩
        · exact Or.inr ⟨u, by simp [hu], he⟩
      · rw [if_neg hkw]
        rcases ih acc with h | ⟨u, hu, he⟩
        · exact Or.inl h
        · exact Or.inr ⟨u, by simp [hu], he⟩

theorem bFind_com_length (ts : List VTriple) (bkw : Bytes)
    (hOK : ∀ t ∈ ts, TripleOK t) : (bFind ts bkw).1.length < 2 ^ 16 := by
  rcases bFold_acc_cases ts bkw ([], none) with h | ⟨t, ht, he⟩
  · rw [bFind, h]; simp
  · rw [bFind, he]; exact (hOK t ht).2.1

theorem bFind_enc_length (ts : List VTriple) (bkw : Bytes)
    (hOK : ∀ t ∈ ts, TripleOK t) :
    (dumbEncodeBin (bFind ts bkw).2).length < 2 ^ 32 := by
  rcases bFold_acc_cases ts bkw ([], none) with h | ⟨t, ht, he⟩
  · rw [bFind, h]; simp [dumbEncodeBin]
  · rw [bFind, he]; exact (hOK t ht).2.2

/-- Value-level effect of `PostingListBucket.set`: the matching triples are
dropped and, unless both the comment and the IntSet are falsy, one fresh
triple is appended at the end of the bucket. -/
def applySet (ts : List VTriple) (bkw : Bytes) (iset : Option (Finset Nat))
    (bc : Bytes) : List VTriple :=
  ts.filter (fun t => t.kw ≠ bkw) ++
    (if bc ≠ [] ∨ isetTruthy iset then [⟨bkw, bc, iset⟩] else [])

theorem serBucket_append_new (ts : List VTriple) (t : VTriple) :
    ((ts.map serTriple) ++
        [packHHI t.kw.length t.com.length (dumbEncodeBin t.iv).length,
          t.kw, t.com, dumbEncodeBin t.iv]).flatten = serBucket (ts ++ [t]) := by
  simp [serBucket, serTriple]

theorem pySetCore_serBucket (ts : List VTriple) (bkw : Bytes)
    (iset : Option (Finset Nat)) (cm bc0 : Bytes)
    (hk : bkw.length < 2 ^ 16) (hcm : cm.length < 2 ^ 16)
    (hbc0 : bc0.length < 2 ^ 16) (henc : (dumbEncodeBin iset).length < 2 ^ 32) :
    pySetCore bkw iset cm ((ts.filter (fun t => t.kw ≠ bkw)).map serTriple) bc0 =
      some (serBucket (applySet ts bkw iset (if cm ≠ [] then cm else bc0))) := by
  unfold pySetCore
  simp only
  set bc := if cm ≠ [] then cm else bc0 with hbc
  have hbclen : bc.length < 2 ^ 16 := by
    rw [hbc]
    by_cases h : cm ≠ []
    · rw [if_pos h]; exact hcm
    · rw [if_neg h]; exact hbc0
  by_cases hkeep : bc ≠ [] ∨ isetTruthy iset
  · rw [if_pos hkeep, if_pos ⟨hk, hbclen, henc⟩]
    rw [applySet, if_pos hkeep]
    rw [← serBucket_append_new]
  · rw [if_neg hkeep]
    rw [applySet, if_neg hkeep]
    simp [serBucket]

theorem pySet_serBucket_none (ts : List VTriple) (bkw : Bytes)
    (iset : Option (Finset Nat)) (cm : Bytes) (hOK : ∀ t ∈ ts, TripleOK t)
    (hk : bkw.length < 2 ^ 16) (hcm : cm.length < 2 ^ 16)
    (henc : (dumbEncodeBin iset).length < 2 ^ 32) :
    pySet (serBucket ts) bkw iset cm none none =
      some (serBucket (applySet ts bkw iset
        (if cm ≠ [] then cm else (bFind ts bkw).1))) := by
  show (pyFindIset (serBucket ts) bkw).bind
      (fun r => pySetCore bkw iset cm r.1 r.2.1) = _
  rw [pyFindIset_serBucket ts bkw hOK]
  rw [Option.some_bind]
  exact pySetCore_serBucket ts bkw iset cm _ hk hcm
    (bFind_com_length ts bkw hOK) henc

theorem pySet_serBucket_given (ts : List VTriple) (bkw : Bytes)
    (iset : Option (Finset Nat)) (cm : Bytes) (hOK : ∀ t ∈ ts, TripleOK t)
    (hk : bkw.length < 2 ^ 16) (hcm : cm.length < 2 ^ 16)
    (henc : (dumbEncodeBin iset).length < 2 ^ 32) :
    pySet (serBucket ts) bkw iset cm (some bkw)
        (some ((ts.filter (fun t => t.kw ≠ bkw)).map serTriple)) =
      some (serBucket (applySet ts bkw iset
        (if cm ≠ [] then cm
         else if bkw = [] ∨ (ts.filter (fun t => t.kw ≠ bkw)).map serTriple = []
           then (bFind ts bkw).1 else []))) := by
  by_cases hvalid : bkw = [] ∨ (ts.filter (fun t => t.kw ≠ bkw)).map serTriple = []
  · show (if bkw = [] ∨ (ts.filter (fun t => t.kw ≠ bkw)).map serTriple = []
        then (pyFindIset (serBucket ts) bkw).bind
          (fun r => pySetCore bkw iset cm r.1 r.2.1)
        else pySetCore bkw iset cm ((ts.filter (fun t => t.kw ≠ bkw)).map serTriple) []) = _
    rw [if_pos hvalid, pyFindIset_serBucket ts bkw hOK, Option.some_bind]
    rw [pySetCore_serBucket ts bkw iset cm _ hk hcm (bFind_com_length ts bkw hOK) henc]
    by_cases h : cm ≠ []
    · rw [if_pos h, if_pos h]
    · rw [if_neg h, if_neg h, if_pos hvalid]
  · show (if bkw = [] ∨ (ts.filter (fun t => t.kw ≠ bkw)).map serTriple = []
        then (pyFindIset (serBucket ts) bkw).bind
          (fun r => pySetCore bkw iset cm r.1 r.2.1)
        else pySetCore bkw iset cm ((ts.filter (fun t => t.kw ≠ bkw)).map serTriple) []) = _
    rw [if_neg hvalid]
    rw [pySetCore_serBucket ts bkw iset cm [] hk hcm (by simp) henc]
    by_cases h : cm ≠ []
    · rw [if_pos h, if_pos h]
    · rw [if_neg h, if_neg h, if_neg hvalid]

/-- Value of the IntSet that `PostingListBucket.add` writes back. -/
def addResultSet (ts : List VTriple) (bkw : Bytes) (ints : Finset Nat)
    (deleted : Option (Finset Nat)) : Finset Nat :=
  let iset0 := (bFind ts bkw).2.getD ∅
  let iset1 := if ints ≠ ∅ then iset0 ∪ ints else iset0
  match deleted with
  | some d => iset1 \ d
  | none => iset1

theorem pyAdd_serBucket (ts : List VTriple) (bkw : Bytes) (ints : Finset Nat)
    (deleted : Option (Finset Nat)) (hOK : ∀ t ∈ ts, TripleOK t)
    (hk : bkw.length < 2 ^ 16)
    (henc : (dumbEncodeBin (some (addResultSet ts bkw ints deleted))).length < 2 ^ 32) :
    pyAdd (serBucket ts) bkw ints deleted =
      some (serBucket (applySet ts bkw (some (addResultSet ts bkw ints deleted))
        (bFind ts bkw).1)) := by
  unfold pyAdd
  rw [pyFindIset_serBucket ts bkw hOK]
  rw [Option.some_bind]
  show pySet (serBucket ts) bkw (some (addResultSet ts bkw ints deleted))
      (bFind ts bkw).1 (some bkw)
      (some ((ts.filter (fun t => t.kw ≠ bkw)).map serTriple)) = _
  rw [pySet_serBucket_given ts bkw _ _ hOK hk (bFind_com_length ts bkw hOK) henc]
  refine congrArg some (congrArg serBucket (congrArg (applySet ts bkw _) ?_))
  by_cases h1 : (bFind ts bkw).1 ≠ []
  · rw [if_pos h1]
  · rw [if_neg h1]
    push_neg at h1
    by_cases h2 : bkw = [] ∨ (ts.filter (fun t => t.kw ≠ bkw)).map serTriple = []
    · rw [if_pos h2]
    · rw [if_neg h2, h1]

theorem pySetComment_serBucket (ts : List VTriple) (bkw : Bytes) (cm : Bytes)
    (hOK : ∀ t ∈ ts, TripleOK t) (hk : bkw.length < 2 ^ 16)
    (hcm : cm.length < 2 ^ 16) :
    pySetComment (serBucket ts) bkw cm =
      some (serBucket (applySet ts bkw (bFind ts bkw).2
        (if cm ≠ [] then cm
         else if bkw = [] ∨ (ts.filter (fun t => t.kw ≠ bkw)).map serTriple = []
           then (bFind ts bkw).1 else []))) := by
  unfold pySetComment
  rw [pyFindIset_serBucket ts bkw hOK]
  rw [Option.some_bind]
  exact pySet_serBucket_given ts bkw _ _ hOK hk hcm (bFind_enc_length ts bkw hOK)

theorem pyRemove_serBucket (ts : List VTriple) (bkw : Bytes)
    (hOK : ∀ t ∈ ts, TripleOK t) :
    pyRemove (serBucket ts) bkw =
      some (if (bFind ts bkw).2.isSome
              then serBucket (ts.filter (fun t => t.kw ≠ bkw))
              else serBucket ts,
            (bFind ts bkw).1, (bFind ts bkw).2) := by
  unfold pyRemove
  rw [pyFindIset_serBucket ts bkw hOK]
  rw [Option.map_some']
  simp only
  by_cases h : (bFind ts bkw).2.isSome
  · rw [if_pos h, if_pos h]
    simp [serBucket]
  · rw [if_neg h, if_neg h]

theorem pyGetFull_serBucket (ts : List VTriple) (bkw : Bytes)
    (hOK : ∀ t ∈ ts, TripleOK t) :
    pyGetFull (serBucket ts) bkw = some (bFind ts bkw) := by
  unfold pyGetFull
  rw [pyFindIset_serBucket ts bkw hOK]
  rw [Option.map_some']

/-- Keywords of the triples of a bucket. -/
def bKws (ts : List VTriple) : List Bytes := ts.map VTriple.kw

/-- First-match lookup; under keyword uniqueness it agrees with the
last-match fold of the Python walk. -/
def bLookup (ts : List VTriple) (bkw : Bytes) : Bytes × Option (Finset Nat) :=
  match ts.find? (fun t => t.kw = bkw) with
  | some t => (t.com, t.iv)
  | none => ([], none)

theorem bFold_of_no_match (ts : List VTriple) (bkw : Bytes)
    (acc : Bytes × Option (Finset Nat)) (h : ∀ t ∈ ts, t.kw ≠ bkw) :
    bFold ts bkw acc = acc := by
  induction ts generalizing acc with
  | nil => rfl
  | cons t ts ih =>
      rw [bFold_cons, if_neg (h t (by simp))]
      exact ih acc (fun x hx => h x (by simp [hx]))

theorem bFind_eq_bLookup (ts : List VTriple) (bkw : Bytes)
    (hnd : (bKws ts).Nodup) : bFind ts bkw = bLookup ts bkw := by
  induction ts with
  | nil => rfl
  | cons t ts ih =>
      rw [bKws, List.map_cons, List.nodup_cons] at hnd
      by_cases hkw : t.kw = bkw
      · rw [bFind, bFold_cons, if_pos hkw]
        have hno : ∀ x ∈ ts, x.kw ≠ bkw := by
          intro x hx he
          have hmem : x.kw ∈ List.map VTriple.kw ts := List.mem_map.mpr ⟨x, hx, rfl⟩
          rw [he, ← hkw] at hmem
          exact hnd.1 hmem
        rw [bFold_of_no_match ts bkw _ hno]
        rw [bLookup, List.find?_cons_of_pos _ (by simp [hkw])]
      · rw [bFind, bFold_cons, if_neg hkw]
        rw [bLookup, List.find?_cons_of_neg _ (by simp [hkw])]
        exact ih hnd.2

/-! ## Bucket invariants (spec section 3, "PostingListBucket") -/

/-- The spec's bucket invariant: keyword uniqueness, and no triple with an
empty IntSet and an empty comment. -/
def BucketInv (ts : List VTriple) : Prop :=
  (bKws ts).Nodup ∧ ∀ t ∈ ts, t.com ≠ [] ∨ isetTruthy t.iv

instance (ts : List VTriple) : Decidable (BucketInv ts) := by
  unfold BucketInv
  infer_instance

theorem bKws_filter_nodup (ts : List VTriple) (bkw : Bytes)
    (hnd : (bKws ts).Nodup) :
    (bKws (ts.filter (fun t => t.kw ≠ bkw))).Nodup := by
  have hsub : (ts.filter (fun t => t.kw ≠ bkw)).Sublist ts := List.filter_sublist ts
  exact hnd.sublist (hsub.map VTriple.kw)

theorem bkw_not_mem_filter (ts : List VTriple) (bkw : Bytes) :
    bkw ∉ bKws (ts.filter (fun t => t.kw ≠ bkw)) := by
  intro h
  rw [bKws] at h
  obtain ⟨t, ht, he⟩ := List.mem_map.mp h
  rw [List.mem_filter] at ht
  exact absurd he (by simpa using ht.2)

theorem applySet_inv (ts : List VTriple) (bkw : Bytes)
    (iset : Option (Finset Nat)) (bc : Bytes) (hinv : BucketInv ts) :
    BucketInv (applySet ts bkw iset bc) := by
  obtain ⟨hnd, hne⟩ := hinv
  constructor
  · rw [applySet]
    by_cases hkeep : bc ≠ [] ∨ isetTruthy iset
    · rw [if_pos hkeep, bKws, List.map_append]
      rw [List.nodup_append]
      refine ⟨bKws_filter_nodup ts bkw hnd, by simp, ?_⟩
      intro x hx
      simp only [List.map_cons, List.map_nil, List.mem_singleton]
      intro he
      rw [he] at hx
      exact bkw_not_mem_filter ts bkw hx
    · rw [if_neg hkeep]
      simpa using bKws_filter_nodup ts bkw hnd
  · intro t ht
    rw [applySet, List.mem_append] at ht
    rcases ht with ht | ht
    · exact hne t (List.mem_of_mem_filter ht)
    · by_cases hkeep : bc ≠ [] ∨ isetTruthy iset
      · rw [if_pos hkeep, List.mem_singleton] at ht
        rw [ht]
        exact hkeep
      · rw [if_neg hkeep] at ht
        simp at ht

/-- Claim C3: for every posting-list bucket whose blob satisfies the
invariant (triples well-sized, keywords unique, no triple with empty
IntSet and empty comment), each of the four mutating operations `set`,
`add`, `set_comment` and `remove` yields a blob that again serializes a
triple list with unique keywords and no empty-and-empty triple. -/
theorem bucket_ops_preserve_invariants
    (ts : List VTriple) (bkw : Bytes)
    (hOK : ∀ t ∈ ts, TripleOK t)
    (hinv : BucketInv ts)
    (hk : bkw.length < 2 ^ 16) :
    (∀ iset cm, cm.length < 2 ^ 16 → (dumbEncodeBin iset).length < 2 ^ 32 →
      ∃ ts2, pySet (serBucket ts) bkw iset cm none none = some (serBucket ts2) ∧
        BucketInv ts2)
    ∧ (∀ ints deleted,
        (dumbEncodeBin (some (addResultSet ts bkw ints deleted))).length < 2 ^ 32 →
        ∃ ts2, pyAdd (serBucket ts) bkw ints deleted = some (serBucket ts2) ∧
          BucketInv ts2)
    ∧ (∀ cm, cm.length < 2 ^ 16 →
        ∃ ts2, pySetComment (serBucket ts) bkw cm = some (serBucket ts2) ∧
          BucketInv ts2)
    ∧ (∃ ts2 com iv, pyRemove (serBucket ts) bkw = some (serBucket ts2, com, iv) ∧
        BucketInv ts2) := by
  refine ⟨?_, ?_, ?_, ?_⟩
  · intro iset cm hcm henc
    exact ⟨_, pySet_serBucket_none ts bkw iset cm hOK hk hcm henc,
      applySet_inv ts bkw _ _ hinv⟩
  · intro ints deleted henc
    exact ⟨_, pyAdd_serBucket ts bkw ints deleted hOK hk henc,
      applySet_inv ts bkw _ _ hinv⟩
  · intro cm hcm
    exact ⟨_, pySetComment_serBucket ts bkw cm hOK hk hcm,
      applySet_inv ts bkw _ _ hinv⟩
  · refine ⟨if (bFind ts bkw).2.isSome
        then ts.filter (fun t => t.kw ≠ bkw) else ts,
      (bFind ts bkw).1, (bFind ts bkw).2, ?_, ?_⟩
    · rw [pyRemove_serBucket ts bkw hOK]
      by_cases h : (bFind ts bkw).2.isSome
      · rw [if_pos h, if_pos h]
      · rw [if_neg h, if_neg h]
    · by_cases h : (bFind ts bkw).2.isSome
      · rw [if_pos h]
        exact ⟨bKws_filter_nodup ts bkw hinv.1,
          fun t ht => hinv.2 t (List.mem_of_mem_filter ht)⟩
      · rw [if_neg h]
        exact hinv

/-- Witness for C3 at a concrete bucket. -/
theorem bucket_ops_preserve_invariants_witness :
    ((∀ t ∈ ([⟨[97], [], some {1}⟩] : List VTriple), TripleOK t)
      ∧ BucketInv [⟨[97], [], some {1}⟩]
      ∧ ([98] : Bytes).length < 2 ^ 16)
    ∧ ((∀ iset cm, cm.length < 2 ^ 16 → (dumbEncodeBin iset).length < 2 ^ 32 →
        ∃ ts2, pySet (serBucket [⟨[97], [], some {1}⟩]) [98] iset cm none none =
            some (serBucket ts2) ∧ BucketInv ts2)
      ∧ (∀ ints deleted,
          (dumbEncodeBin (some (addResultSet [⟨[97], [], some {1}⟩] [98] ints deleted))).length
              < 2 ^ 32 →
          ∃ ts2, pyAdd (serBucket [⟨[97], [], some {1}⟩]) [98] ints deleted =
              some (serBucket ts2) ∧ BucketInv ts2)
      ∧ (∀ cm, cm.length < 2 ^ 16 →
          ∃ ts2, pySetComment (serBucket [⟨[97], [], some {1}⟩]) [98] cm =
              some (serBucket ts2) ∧ BucketInv ts2)
      ∧ (∃ ts2 com iv,
          pyRemove (serBucket [⟨[97], [], some {1}⟩]) [98] =
              some (serBucket ts2, com, iv) ∧ BucketInv ts2)) :=
  ⟨⟨by decide, by decide, by decide⟩,
    bucket_ops_preserve_invariants [⟨[97], [], some {1}⟩] [98]
      (by decide) (by decide) (by decide)⟩

/-- Claim C10: removing a keyword with no triple in the bucket returns the
Python pair `(b'', None)` (IntSet component `None`) and leaves the blob
byte-for-byte unchanged. -/
theorem remove_absent_keyword_frame (ts : List VTriple) (bkw : Bytes)
    (hOK : ∀ t ∈ ts, TripleOK t) (hno : ∀ t ∈ ts, t.kw ≠ bkw) :
    pyRemove (serBucket ts) bkw = some (serBucket ts, [], none) := by
  rw [pyRemove_serBucket ts bkw hOK]
  have h0 : bFind ts bkw = ([], none) := bFold_of_no_match ts bkw _ hno
  rw [h0]
  simp

/-- Witness for C10 at a concrete bucket. -/
theorem remove_absent_keyword_frame_witness :
    ((∀ t ∈ ([⟨[97], [], some {1}⟩] : List VTriple), TripleOK t)
      ∧ (∀ t ∈ ([⟨[97], [], some {1}⟩] : List VTriple), t.kw ≠ [98]))
    ∧ pyRemove (serBucket [⟨[97], [], some {1}⟩]) [98] =
        some (serBucket [⟨[97], [], some {1}⟩], [], none) :=
  ⟨⟨by decide, by decide⟩,
    remove_absent_keyword_frame [⟨[97], [], some {1}⟩] [98] (by decide) (by decide)⟩

/-! ## String and number helpers

The engine works on Python `str` values; prefix tests, splitting and
formatting are embedded as operations on the character list `s.data`
(Lean's `String` functions do not all evaluate inside the kernel). -/

/-- Python `s[:len(p)] == p`. -/
def hasPre (s : String) (p : String) : Bool :=
  decide (s.data.take p.data.length = p.data)

/-- Python `needle in haystack` for strings (substring containment). -/
def listInfixB (needle : List Char) : List Char → Bool
  | [] => needle.isEmpty
  | c :: t => decide ((c :: t).take needle.length = needle) || listInfixB needle t

def strIn (needle hay : String) : Bool :=
  listInfixB needle.data hay.data

/-- Python `s.endswith(t)`. -/
def strEnds (s t : String) : Bool :=
  decide (s.data.drop (s.data.length - t.data.length) = t.data) && decide (t.data.length ≤ s.data.length)

/-- Python `s.split(sep)` for a one-character separator (keeps empty parts). -/
def splitCharAux (sep : Char) : List Char → List Char → List (List Char)
  | [], acc => [acc.reverse]
  | c :: t, acc =>
      if c = sep then acc.reverse :: splitCharAux sep t []
      else splitCharAux sep t (c :: acc)

def pySplitChar (s : String) (sep : Char) : List String :=
  (splitCharAux sep s.data []).map String.mk

/-- Python `s.split(sep)` for a multi-character separator, with fuel (the
scan consumes at least one character per step). -/
def splitSeqAux (sep : List Char) : Nat → List Char → List Char → List (List Char)
  | _, [], acc => [acc.reverse]
  | 0, l, acc => [(acc.reverse ++ l)]
  | fuel + 1, c :: t, acc =>
      if (c :: t).take sep.length = sep then
        acc.reverse :: splitSeqAux sep fuel ((c :: t).drop sep.length) []
      else splitSeqAux sep fuel t (c :: acc)

def pySplitSeq (s : String) (sep : String) : List String :=
  (splitSeqAux sep.data (s.data.length + 1) s.data []).map String.mk

/-- Python `int(s)` (decimal, optional sign; `none` models `ValueError`).
Only the forms the engine's callers produce are modelled. -/
def decVal (c : Char) : Option Nat :=
  if 48 ≤ c.toNat ∧ c.toNat ≤ 57 then some (c.toNat - 48) else none

def decValList : List Char → Option Nat
  | [] => none
  | l => l.foldl (fun acc c =>
      match acc, decVal c with
      | some a, some d => some (a * 10 + d)
      | _, _ => none) (some 0)

def pyInt (s : String) : Option Int :=
  match s.data with
  | '-' :: rest => (decValList rest).map (fun n => -(n : Int))
  | '+' :: rest => (decValList rest).map (fun n => (n : Int))
  | l => (decValList l).map (fun n => (n : Int))

/-- Python `int(s, 16)` (non-negative hex; `none` models `ValueError`). -/
def hexVal (c : Char) : Option Nat :=
  if 48 ≤ c.toNat ∧ c.toNat ≤ 57 then some (c.toNat - 48)
  else if 97 ≤ c.toNat ∧ c.toNat ≤ 102 then some (c.toNat - 87)
  else if 65 ≤ c.toNat ∧ c.toNat ≤ 70 then some (c.toNat - 55)
  else none

def pyIntHex (s : String) : Option Nat :=
  match s.data with
  | [] => none
  | l => l.foldl (fun acc c =>
      match acc, hexVal c with
      | some a, some d => some (a * 16 + d)
      | _, _ => none) (some 0)

/-- Digits of `n` in `base`, least significant first, with fuel. -/
def digitsAux (base : Nat) : Nat → Nat → List Nat
  | 0, _ => []
  | fuel + 1, n => if n = 0 then [] else n % base :: digitsAux base fuel (n / base)

def hexDigit (d : Nat) : Char :=
  if d < 10 then Char.ofNat (48 + d) else Char.ofNat (87 + d)

/-- Python `'%x' % n` (lowercase hex). -/
def natToHex (n : Nat) : String :=
  if n = 0 then "0" else String.mk (((digitsAux 16 64 n).reverse).map hexDigit)

/-- Python `'%.3x' % n`. -/
def fmtHex3 (n : Nat) : String :=
  String.mk (List.replicate (3 - (natToHex n).data.length) '0' ++ (natToHex n).data)

/-- Python `'%d' % n` / `str(n)`. -/
def natToDec (n : Nat) : String :=
  if n = 0 then "0" else String.mk (((digitsAux 10 64 n).reverse).map (fun d => Char.ofNat (48 + d)))

/-- UTF-8 bytes of one code point. -/
def utf8Char (c : Nat) : Bytes :=
  if c < 0x80 then [c]
  else if c < 0x800 then [0xC0 + c / 64, 0x80 + c % 64]
  else if c < 0x10000 then [0xE0 + c / 4096, 0x80 + c / 64 % 64, 0x80 + c % 64]
  else [0xF0 + c / 262144, 0x80 + c / 4096 % 64, 0x80 + c / 64 % 64, 0x80 + c % 64]

/-- Python `bytes(s, 'utf-8')`. -/
def strBytes (s : String) : Bytes :=
  (s.data.map (fun c => utf8Char c.toNat)).flatten

/-- Python `str(b, 'utf-8')`, with fuel; malformed bytes are skipped (the
well-formed states the theorems quantify over never store them). -/
def utf8DecodeAux : Nat → Bytes → List Char
  | 0, _ => []
  | _, [] => []
  | fuel + 1, b :: rest =>
      if b < 0x80 then Char.ofNat b :: utf8DecodeAux fuel rest
      else if 0xC0 ≤ b ∧ b < 0xE0 then
        match rest with
        | b2 :: rest2 => Char.ofNat ((b - 0xC0) * 64 + (b2 - 0x80)) :: utf8DecodeAux fuel rest2
        | [] => []
      else if 0xE0 ≤ b ∧ b < 0xF0 then
        match rest with
        | b2 :: b3 :: rest3 =>
            Char.ofNat ((b - 0xE0) * 4096 + (b2 - 0x80) * 64 + (b3 - 0x80))
              :: utf8DecodeAux fuel rest3
        | _ => []
      else if 0xF0 ≤ b ∧ b < 0xF8 then
        match rest with
        | b2 :: b3 :: b4 :: rest4 =>
            Char.ofNat ((b - 0xF0) * 262144 + (b2 - 0x80) * 4096 + (b3 - 0x80) * 64 + (b4 - 0x80))
              :: utf8DecodeAux fuel rest4
        | _ => []
      else utf8DecodeAux fuel rest

def bytesStr (b : Bytes) : String :=
  String.mk (utf8DecodeAux (b.length + 1) b)

/-! ## Modelled collaborators of the engine

`storage/records.py`, `util/mailpile.py`, `search/dates.py` and
`search/versions.py` are not under `src/`; the definitions below are
modelled from the spec and say so. -/

/-- Modelled from the spec (4.2): `hash_key` is a deterministic 16-byte
hash of the key bytes (the source keys it with SHA-256 and a per-store
salt; the model uses a polynomial fold modulo `2^128`, which is all the
engine-level properties need of it). -/
def hashKeyB (b : Bytes) : Bytes :=
  leBytes 16 (b.foldl (fun h c => (h * 31 + c + 1) % 2 ^ 128) 7)

def hashKey (s : String) : Bytes := hashKeyB (strBytes s)

/-- Modelled from the spec (4.5): `tag_quote` is a reversible
percent-style encoding of any character outside the safe set; the model
keeps letters, digits, `.`, `_`, `-` and the structural `:` and `@` as
they are and writes any other character as `%XX` over its UTF-8 bytes. -/
def safeTagChar (c : Char) : Bool :=
  decide (65 ≤ c.toNat ∧ c.toNat ≤ 90) || decide (97 ≤ c.toNat ∧ c.toNat ≤ 122)
    || decide (48 ≤ c.toNat ∧ c.toNat ≤ 57)
    || decide (c = '.') || decide (c = '_') || decide (c = '-')
    || decide (c = ':') || decide (c = '@')

def hexDigitU (d : Nat) : Char :=
  if d < 10 then Char.ofNat (48 + d) else Char.ofNat (55 + d)

def tagQuote (s : String) : String :=
  String.mk (s.data.flatMap (fun c =>
    if safeTagChar c then [c]
    else (utf8Char c.toNat).flatMap (fun b => ['%', hexDigitU (b / 16), hexDigitU (b % 16)])))

/-- Modelled from the spec (4.5): `tag_unquote`, the inverse decoding;
`none` models the `ValueError` on a malformed `%` escape.  Quoted
multi-byte characters are unquoted byte-wise, enough for the ASCII
keywords the properties below use. -/
def tagUnquoteAux : Nat → List Char → Option (List Char)
  | 0, _ => none
  | _ + 1, [] => some []
  | fuel + 1, c :: rest =>
      if c = '%' then
        match rest with
        | c1 :: c2 :: rest2 =>
            match hexVal c1, hexVal c2 with
            | some d1, some d2 =>
                (tagUnquoteAux fuel rest2).map (Char.ofNat (d1 * 16 + d2) :: ·)
            | _, _ => none
        | _ => none
      else (tagUnquoteAux fuel rest).map (c :: ·)

def tagUnquote (s : String) : Option String :=
  (tagUnquoteAux (s.data.length + 1) s.data).map String.mk

/-- `SearchEngine.tag_quote_magic` (engine.py lines 926-933). -/
def tagQuoteMagic (term : String) : String :=
  if strIn "%" term then
    match tagUnquote term with
    | some u => tagQuote u
    | none => tagQuote term
  else tagQuote term

/-- Gregorian calendar date (UTC) from a day count since the epoch
(the standard civil-from-days computation, here for days ≥ 0). -/
def civilFromDays (days : Nat) : Nat × Nat × Nat :=
  let z := days + 719468
  let era := z / 146097
  let doe := z % 146097
  let yoe := (doe - doe / 1460 + doe / 36524 - doe / 146096) / 365
  let doy := doe - (365 * yoe + yoe / 4 - yoe / 100)
  let mp := (5 * doy + 2) / 153
  let d := doy - (153 * mp + 2) / 5 + 1
  let m := if mp < 10 then mp + 3 else mp - 9
  let y := era * 400 + yoe + (if m ≤ 2 then 1 else 0)
  (y, m, d)

def pad2 (n : Nat) : String :=
  if n < 10 then "0" ++ natToDec n else natToDec n

/-- Modelled from the spec (4.5): `ts_to_keywords(ts, kw_date)` emits the
`kw_date:YYYY`, `kw_date:YYYY-MM` and `kw_date:YYYY-MM-DD` keywords at
UTC boundaries.  The spec's extra `year:`/`month:` keywords belong to
the default `date` family; for the `vdate` family used by `touch` only
`kw_date:`-prefixed keywords are produced (the spec's round-trip clause,
which excludes exactly `version:`/`vdate:` keywords, relies on that). -/
def tsToKeywords (ts : Nat) (kwDate : String) : List String :=
  let ymd := civilFromDays (ts / 86400)
  let y := natToDec ymd.1
  [kwDate ++ ":" ++ y,
   kwDate ++ ":" ++ y ++ "-" ++ pad2 ymd.2.1,
   kwDate ++ ":" ++ y ++ "-" ++ pad2 ymd.2.1 ++ "-" ++ pad2 ymd.2.2]

/-- Modelled from the spec (4.5): `version_to_keywords(v)` returns
`version:<v>` exactly plus a fixed small set of power-of-two bucket
keywords; every keyword carries the `version:` prefix.  The bucket
keyword format is unspecified, the model writes `version:2p<k>` for each
power `2^k ≤ v` with `k < 48`. -/
def versionToKeywords (v : Nat) : List String :=
  ("version:" ++ natToDec v) ::
    ((List.range 48).filter (fun k => 2 ^ k ≤ v)).map
      (fun k => "version:2p" ++ natToDec k)

/-! ## The engine state

`SearchEngine` state as the claims need it: the record store contents, the
hashed-key map, the configuration values `l1_keywords`/`l2_buckets`, the
history status (`self.history`), `maxint`, `deleted` and the pending
wordblob terms (`part_spaces[1]`).  Reserved indices follow the source:
`IDX_HISTORY_STATUS = 1000`, the history ring is 1001..2000 and
`l1_begin = IDX_MAX_RESERVED + 1 = 2001`. -/

structure Change where
  kw : String
  idx : Nat
  encIset : Bytes
  encOset : Bytes
deriving DecidableEq

structure HistEntry where
  hid : String
  hts : Nat
  comment : String
  version : Nat
  changes : List Change
deriving DecidableEq

inductive RecVal where
  | blob (b : Bytes)
  | hist (h : HistEntry)
  | status (pos : Option Nat) (ver : Nat)
deriving DecidableEq

structure Engine where
  recs : List (Nat × RecVal)
  keys : List (Bytes × Nat)
  l1Keywords : Nat
  l2Buckets : Nat
  histPos : Option Nat
  histVer : Nat
  maxint : Nat
  deleted : Finset Nat
  pending : List String
  partWords : List String
  partialMatches : Nat
deriving DecidableEq

instance : Inhabited Engine :=
  ⟨⟨[], [], 0, 1, none, 0, 0, ∅, [], [], 25⟩⟩

def idxHistoryStatus : Nat := 1000
def idxHistoryStart : Nat := 1001
def idxHistoryEnd : Nat := 2000

/-- `self.l1_begin = IDX_MAX_RESERVED + 1`. -/
def l1Begin : Nat := 2001

/-- `self.l2_begin = l1_begin + config['l1_keywords']`. -/
def l2Begin (e : Engine) : Nat := l1Begin + e.l1Keywords

/-- Modelled from the spec (4.2): `RecordStore.get`; an absent record
reads as `None`. -/
def rget (e : Engine) (idx : Nat) : Option RecVal :=
  (e.recs.find? (fun p => p.1 = idx)).map (·.2)

/-- Modelled from the spec (4.2): `idx in records`. -/
def rcontains (e : Engine) (idx : Nat) : Bool :=
  (rget e idx).isSome

/-- Modelled from the spec (4.2): `records[idx] = v` replaces the record;
writing an empty byte string logically deletes it. -/
def rset (e : Engine) (idx : Nat) (v : RecVal) : Engine :=
  let cleared := e.recs.filter (fun p => p.1 ≠ idx)
  if v = RecVal.blob [] then { e with recs := cleared }
  else { e with recs := (idx, v) :: cleared }

/-- `self.records.get(idx) or b''` as the bucket paths read it.  A record
holding a non-blob value would make the Python constructor misbehave;
the well-formed states quantified over below never keep one at a bucket
index. -/
def blobAtD (e : Engine) (idx : Nat) : Bytes :=
  match rget e idx with
  | some (RecVal.blob b) => b
  | _ => []

/-- Modelled from the spec (4.2): the hashed-key map lookup
`records.keys.get(kw_hash)`; the stored pair's position component is
dropped (the engine only uses `kw_pos_idx[1]`). -/
def lookupKeys (e : Engine) (h : Bytes) : Option Nat :=
  (e.keys.find? (fun p => p.1 = h)).map (·.2)

/-- Modelled from the spec (4.2): `records.set_key(kw, idx)`. -/
def setKey (e : Engine) (kw : String) (idx : Nat) : Engine :=
  { e with keys := (hashKey kw, idx) :: e.keys.filter (fun p => p.1 ≠ hashKey kw) }

/-! ## Keyword placement (`engine.py` lines 465-491) -/

/-- `SearchEngine._empty_l1_idx` as a total scan: the first index in
`[l1_begin, l2_begin)` not in the records. -/
def emptyL1Idx (e : Engine) : Option Nat :=
  (List.range' l1Begin e.l1Keywords).find? (fun idx => !(rcontains e idx))

/-- `SearchEngine.keyword_index(kw, prefer_l1=None, create=False)`.
`prefer_l1` is `Option Bool` (`none` is Python `None`, falsy); when the
L1 scan finds no free slot the source executes `raise None`, which
Python turns into a `TypeError`.  The returned engine differs from the
input only when a fresh L1 record is claimed. -/
def keywordIndex (e : Engine) (kw : String) (preferL1 : Option Bool := none)
    (create : Bool := false) : Except Err (Nat × Engine) :=
  let kwHash := hashKey kw
  let preferL1 := if preferL1 = none ∧ hasPre kw "in:" then some true else preferL1
  match lookupKeys e kwHash with
  | some idx => .ok (idx, e)
  | none =>
      if preferL1.getD false ∧ create then
        match emptyL1Idx e with
        | some idx => .ok (idx, rset (setKey e kw idx) idx (RecVal.blob []))
        | none => .error Err.typeErr
      else
        .ok (leVal (kwHash.take 4) % e.l2Buckets + l2Begin e, e)

/-- `SearchEngine.__getitem__` (lines 804-807): `plb.get(keyword) or
IntSet()`. -/
def getItem (e : Engine) (kw : String) : Except Err (Finset Nat) :=
  match keywordIndex e kw none false with
  | .error er => .error er
  | .ok (idx, e1) =>
      match pyGetFull (blobAtD e1 idx) (strBytes kw) with
      | none => .error Err.structErr
      | some r => .ok (if isetTruthy r.2 then r.2.getD ∅ else ∅)

/-- `SearchEngine._ns` (lines 533-538). -/
def nsApply (k : String) (ns : String) : Except Err String :=
  if ns ≠ "" ∧ hasPre k "in:" then
    if strIn "@" k then .error Err.permissionErr
    else .ok (k ++ "@" ++ ns)
  else .ok k

/-! ## iter_tags (`engine.py` lines 308-330) -/

/-- The walk of `PostingListBucket.items(decode=False)`: the raw
`(keyword, comment, iset_blob)` byte triples. -/
def bucketItemsLoop : Nat → Bytes → Option (List (Bytes × Bytes × Bytes))
  | _, [] => some []
  | 0, _ :: _ => none
  | fuel + 1, b :: bs =>
      match unpackHHI (b :: bs) with
      | none => none
      | some (kwLn, cLn, isLn) =>
          let rest0 := (b :: bs).drop 8
          (bucketItemsLoop fuel ((b :: bs).drop (8 + kwLn + cLn + isLn))).map
            (fun l => (rest0.take kwLn, (rest0.drop kwLn).take cLn,
              ((rest0.drop kwLn).drop cLn).take isLn) :: l)

def bucketItems (blob : Bytes) : Option (List (Bytes × Bytes × Bytes)) :=
  bucketItemsLoop (blob.length + 1) blob

/-- The per-item filtering and decoding of `iter_tags`: keywords longer
than 3 characters starting `in:` whose fourth character is not `@`,
restricted to the namespace suffix when one is given (and then yielded
with the suffix stripped); `dumb_decode(iset) or no_hits`. -/
def iterTagsOfItems (tagNs : String) :
    List (Bytes × Bytes × Bytes) → Except Err (List (String × (Bytes × Finset Nat)))
  | [] => .ok []
  | it :: rest =>
      let kw := bytesStr it.1
      let keep : Bool :=
        decide (kw.data.length > 3) && decide (kw.data.take 3 = "in:".data)
          && decide (kw.data.get? 3 ≠ some '@')
          && (if tagNs = "" then true else strEnds kw ("@" ++ tagNs))
      if keep then
        match dumbDecode it.2.2 with
        | none => .error Err.valueErr
        | some v =>
            let outKw := if tagNs = "" then kw else String.mk (kw.data.takeWhile (· ≠ '@'))
            let iset := if isetTruthy v then v.getD ∅ else ∅
            (iterTagsOfItems tagNs rest).map ((outKw, (it.2.1, iset)) :: ·)
      else iterTagsOfItems tagNs rest

/-- The L1 scan of `iter_tags`: it stops (generator `return`) at the first
index not in the records. -/
def iterTagsLoop (e : Engine) (tagNs : String) :
    Nat → Nat → Except Err (List (String × (Bytes × Finset Nat)))
  | 0, _ => .ok []
  | fuel + 1, idx =>
      if rcontains e idx then
        match bucketItems (blobAtD e idx) with
        | none => .error Err.structErr
        | some items =>
            match iterTagsOfItems tagNs items with
            | .error er => .error er
            | .ok l1 => (iterTagsLoop e tagNs fuel (idx + 1)).map (l1 ++ ·)
      else .ok []

/-- `SearchEngine.iter_tags` collected into a list (the source is a
generator; the engine's only internal consumer, the `in:*` expansion in
`mutate`, iterates it fully). -/
def iterTags (e : Engine) (tagNs : String := "") :
    Except Err (List (String × (Bytes × Finset Nat))) :=
  iterTagsLoop e tagNs e.l1Keywords l1Begin

/-- `SearchEngine._allocate_history_slot` (lines 286-294): returns
`(pos, ver)` and the updated engine (`self.history` plus the status
record write). -/
def allocateHistorySlot (e : Engine) : (Nat × Nat) × Engine :=
  let pos0 := e.histPos.getD idxHistoryEnd + 1
  let pos := if pos0 > idxHistoryEnd then idxHistoryStart else pos0
  let ver := e.histVer + 1
  let e1 := { e with histPos := some pos, histVer := ver }
  ((pos, ver), rset e1 idxHistoryStatus (RecVal.status (some pos) ver))

/-! ## add_results and touch (`engine.py` lines 493-531, 619-637, 777-802)

`touch()` with no ids (as `_prep_results` calls it) only bumps the version
and builds the `version:`/`vdate:` keywords; `touch(ids, …)` additionally
calls `add_results(…, touch=False)`, so the two directions never recurse
more than one level and are split into `touchBump`, `addResults` and
`touch` below.  Result ids are Lean `Nat`s, so the
`raise ValueError('Results must be integers')` guard of `_prep_results`
is statically satisfied. -/

/-- The version bump of `touch` (`version is None`): increment
`self.history['ver']`, write the status record, and build the keywords
for `now` (the caller's `time.time()`). -/
def touchBump (e : Engine) (now : Nat) : List String × Engine :=
  let v := e.histVer + 1
  (versionToKeywords v ++ tsToKeywords now "vdate",
   rset { e with histVer := v } idxHistoryStatus (RecVal.status e.histPos v))

/-- Keyword normalization inside `_prep_results`: strip `*`, rewrite
`tag:` to `in:`, namespace and quote `in:` keywords. -/
def normKw (tagNs : String) (kw : String) : String :=
  let kw := String.mk (kw.data.filter (· ≠ '*'))
  let kw := if hasPre kw "tag:" then "in:" ++ String.mk (kw.data.drop 4) else kw
  if hasPre kw "in:" then
    let kw := if tagNs ≠ "" then kw ++ "@" ++ tagNs else kw
    tagQuoteMagic kw
  else kw

/-- Insertion-ordered keyword map, as a Python dict preserves insertion
order: `keywords[kw] = keywords.get(kw, []) + [r_id]`. -/
abbrev KwMap := List (String × List Nat)

def kwAdd (m : KwMap) (k : String) (i : Nat) : KwMap :=
  if m.any (fun p => decide (p.1 = k)) then
    m.map (fun p => if p.1 = k then (p.1, p.2 ++ [i]) else p)
  else m ++ [(k, [i])]

def prepKwLoop (tagNs : String) (rid : Nat) : KwMap → List String → KwMap
  | m, [] => m
  | m, kw :: rest => prepKwLoop tagNs rid (kwAdd m (normKw tagNs kw) rid) rest

/-- The accumulator of the `_prep_results` main loop: the keyword map,
the hits list and the running `self.maxint`. -/
def prepIdsLoop (tagNs : String) (kwList extraKws : List String) :
    KwMap × List Nat × Nat → List Nat → KwMap × List Nat × Nat
  | acc, [] => acc
  | (m, hits, mx), rid :: rest =>
      let mx2 := if rid ≥ mx then rid + 1 else mx
      let m2 := prepKwLoop tagNs rid m (kwList ++ extraKws)
      let hits2 := if kwList ≠ [] then hits ++ [rid] else hits
      prepIdsLoop tagNs kwList extraKws (m2, hits2, mx2) rest

def prepEntriesLoop (tagNs : String) (extraKws : List String) :
    KwMap × List Nat × Nat → List (List Nat × List String) → KwMap × List Nat × Nat
  | acc, [] => acc
  | acc, (ids, kws) :: rest =>
      prepEntriesLoop tagNs extraKws (prepIdsLoop tagNs kws extraKws acc ids) rest

/-- `kw_idx_list = [(keyword_index(k, prefer_l1, create), k) for k in
keywords]`, threading the engine (a `create` call may claim L1 slots). -/
def kwIdxLoop (preferL1 : Option Bool) (create : Bool) :
    Engine → List String → Except Err (List (Nat × String) × Engine)
  | e, [] => .ok ([], e)
  | e, k :: rest =>
      match keywordIndex e k preferL1 create with
      | .error er => .error er
      | .ok (idx, e1) =>
          match kwIdxLoop preferL1 create e1 rest with
          | .error er => .error er
          | .ok (l, e2) => .ok ((idx, k) :: l, e2)

/-- `SearchEngine._prep_results` (lines 493-531). -/
def prepResults (e : Engine) (results : List (List Nat × List String))
    (preferL1 : Option Bool) (tagNs : String) (touchFlag : Bool) (create : Bool)
    (now : Nat) :
    Except Err (List (Nat × String) × List (String × Finset Nat) × List Nat × Engine) :=
  let extra0 : List String := if tagNs ≠ "" then ["in:"] else []
  let te : List String × Engine :=
    if touchFlag then
      let t := touchBump e now
      (extra0 ++ t.1, t.2)
    else (extra0, e)
  let acc := prepEntriesLoop tagNs te.1 ([], [], e.maxint) results
  let e1 := { te.2 with maxint := acc.2.2 }
  match kwIdxLoop preferL1 create e1 (acc.1.map (·.1)) with
  | .error er => .error er
  | .ok (kil, e2) =>
      .ok (kil, acc.1.map (fun p => (p.1, p.2.toFinset)), acc.2.1, e2)

def kwLookup (m : List (String × Finset Nat)) (k : String) : Finset Nat :=
  ((m.find? (fun p => p.1 = k)).map (·.2)).getD ∅

/-- Ordering of `sorted(kw_idx_list)`: Python tuple order on
`(int, str)`. -/
def charListLe : List Char → List Char → Bool
  | [], _ => true
  | _ :: _, [] => false
  | c :: cs, d :: ds =>
      decide (c.toNat < d.toNat) || (decide (c.toNat = d.toNat) && charListLe cs ds)

def pairLe (a b : Nat × String) : Bool :=
  decide (a.1 < b.1) || (decide (a.1 = b.1) && charListLe a.2.data b.2.data)

def insertSorted {α : Type} (le : α → α → Bool) (x : α) : List α → List α
  | [] => [x]
  | y :: ys => if le x y then x :: y :: ys else y :: insertSorted le x ys

def insSort {α : Type} (le : α → α → Bool) : List α → List α
  | [] => []
  | x :: xs => insertSorted le x (insSort le xs)

/-- The bucket write loop of `add_results`: load, set `plb.deleted`,
`plb.add(kw, keywords[kw])`, write back. -/
def addWriteLoop (kwMap : List (String × Finset Nat)) :
    Engine → List (Nat × String) → Except Err Engine
  | e, [] => .ok e
  | e, (idx, kw) :: rest =>
      match pyAdd (blobAtD e idx) (strBytes kw) (kwLookup kwMap kw) (some e.deleted) with
      | none => .error Err.structErr
      | some b2 => addWriteLoop kwMap (rset e idx (RecVal.blob b2)) rest

/-- `SearchEngine.add_results` (lines 777-802); returns the
`{'keywords': …, 'hits': …}` payload and the new engine.  Profiling
statements are pure logging and are not modelled. -/
def addResults (e : Engine) (results : List (List Nat × List String))
    (preferL1 : Option Bool := none) (tagNs : String := "")
    (touchFlag : Bool := true) (now : Nat := 0) :
    Except Err ((Nat × List Nat) × Engine) :=
  match prepResults e results preferL1 tagNs touchFlag true now with
  | .error er => .error er
  | .ok (kil, kwMap, hits, e1) =>
      match addWriteLoop kwMap e1 (insSort pairLe kil) with
      | .error er => .error er
      | .ok e2 =>
          let newPending := (kwMap.map (·.1)).foldl
            (fun acc k => if acc.any (fun x => decide (x = k)) then acc else acc ++ [k])
            e2.pending
          .ok ((kwMap.length, hits), { e2 with pending := newPending })

/-- `SearchEngine.touch` (lines 619-637).  The engine's internal callers
never pass `ts`, so the model takes the current time `now` directly. -/
def touch (e : Engine) (ids : Option (List Nat)) (version : Option Nat)
    (now : Nat) : Except Err (List String × Engine) :=
  let p : List String × Engine :=
    match version with
    | none => touchBump e now
    | some v => (versionToKeywords v ++ tsToKeywords now "vdate", e)
  match ids with
  | none => .ok p
  | some l =>
      match addResults p.2 [(l, p.1)] none "" false now with
      | .error er => .error er
      | .ok (_, e2) => .ok (p.1, e2)

/-! ## mutate (`engine.py` lines 639-732) and undo/redo (lines 571-617) -/

/-- A mutation scope: an IntSet of ids, or a dict for a comment edit. -/
inductive MScope where
  | ids (s : Finset Nat)
  | comments (d : List (String × String))
deriving DecidableEq

/-- The op values `mutate` accepts: the strings `'+'`/`'-'` (byte strings
behave identically and are collapsed), the functions `IntSet.Or` and
`IntSet.Sub`, or anything else (rejected by `_op`). -/
inductive PyOp where
  | plus
  | minus
  | orFn
  | subFn
  | bad
deriving DecidableEq

inductive SetOp2 where
  | or
  | sub
deriving DecidableEq

/-- The `_op` normalizer inside `mutate` (lines 640-647). -/
def opNorm : PyOp → Except Err SetOp2
  | .plus => .ok .or
  | .orFn => .ok .or
  | .minus => .ok .sub
  | .subFn => .ok .sub
  | .bad => .error Err.valueErr

/-- Modelled from the spec: `to_json` over the comment-patch dict
(`util/dumbcode.py` is not under `src/`); a deterministic key=value
rendering, enough for the engine paths none of the claims exercise. -/
def toJson (cd : List (String × String)) : Bytes :=
  (cd.map (fun p => strBytes p.1 ++ [61] ++ strBytes p.2 ++ [59])).flatten

/-- Modelled from the spec: `from_json`, the inverse parser of the
rendering above; `none` models a parse error. -/
def fromJson (b : Bytes) : Option (List (String × String)) :=
  let parts := (splitCharAux ';' (utf8DecodeAux (b.length + 1) b) []).dropLast
  some (parts.map (fun part =>
    (String.mk (part.takeWhile (· ≠ '=')),
     String.mk ((part.dropWhile (· ≠ '=')).drop 1))))

/-- Python `cdata.update(mset)`. -/
def jsonUpdate (cd d : List (String × String)) : List (String × String) :=
  d.foldl (fun acc kv => (acc.filter (fun p => p.1 ≠ kv.1)) ++ [kv]) cd

/-- Python `for k, v in mset.items(): if k in cdata: del cdata[k]`. -/
def jsonRemove (cd d : List (String × String)) : List (String × String) :=
  cd.filter (fun p => d.all (fun q => q.1 ≠ p.1))

/-- The `keyword_index(tag, create=False)` pass over the tags yielded by
the `in:*` expansion. -/
def tagIdxLoop : Engine → List (String × (Bytes × Finset Nat)) →
    Except Err (List (SetOp2 × String × Nat) × Engine)
  | e, [] => .ok ([], e)
  | e, (tag, _) :: rest =>
      match keywordIndex e tag none false with
      | .error er => .error er
      | .ok (idx, e1) =>
          match tagIdxLoop e1 rest with
          | .error er => .error er
          | .ok (l, e2) => .ok ((SetOp2.sub, tag, idx) :: l, e2)

/-- `mutate._op_kwi` (lines 651-659): expand `in:*` (for subtraction, over
`iter_tags`; for union the generator yields nothing), else namespace the
keyword and resolve it (creating an L1 slot only for union ops). -/
def opKwi (e : Engine) (tagNs : String) (op : PyOp) (kw : String) :
    Except Err (List (SetOp2 × String × Nat) × Engine) :=
  match opNorm op with
  | .error er => .error er
  | .ok o =>
      if kw = "in:*" ∨ kw = tagQuote "in:*" then
        match o with
        | .sub =>
            match iterTags e tagNs with
            | .error er => .error er
            | .ok tags => tagIdxLoop e tags
        | .or => .ok ([], e)
      else
        match nsApply kw tagNs with
        | .error er => .error er
        | .ok kw2 =>
            match keywordIndex e kw2 none (decide (o = SetOp2.or)) with
            | .error er => .error er
            | .ok (idx, e1) => .ok ([(o, kw2, idx)], e1)

def opKwsFlatten (tagNs : String) : Engine → List (PyOp × String) →
    Except Err (List (SetOp2 × String × Nat) × Engine)
  | e, [] => .ok ([], e)
  | e, (op, kw) :: rest =>
      match opKwi e tagNs op kw with
      | .error er => .error er
      | .ok (l1, e1) =>
          match opKwsFlatten tagNs e1 rest with
          | .error er => .error er
          | .ok (l2, e2) => .ok (l1 ++ l2, e2)

/-- The accumulator of `mutate`: `cset_all`, `changes`, `mutations` and
the engine. -/
structure MutAcc where
  cset : Finset Nat
  changes : List Change
  mutations : Nat
  eng : Engine
deriving DecidableEq

/-- `dumb_encode_asc(iset, compress=256)`: the model reuses the binary
layout (the ASCII armor and the compression threshold are not modelled;
`historic_mutations` only ever round-trips these blobs). -/
def dumbEncodeAsc (s : Finset Nat) : Bytes := dumbEncodeBin (some s)

/-- One op of the `mutate` inner loop (lines 671-710). -/
def mutOp (acc : MutAcc) (mset : MScope) (o : SetOp2) (kw : String) (idx : Nat) :
    Except Err MutAcc :=
  let blob := blobAtD acc.eng idx
  match pyGetFull blob (strBytes kw) with
  | none => .error Err.structErr
  | some (comment, iset0) =>
      match mset with
      | .comments d =>
          match (if comment ≠ [] then fromJson comment else some []) with
          | none => .error Err.valueErr
          | some cd =>
              let cd2 := match o with
                | .or => jsonUpdate cd d
                | .sub => jsonRemove cd d
              match pySetComment blob (strBytes kw) (toJson cd2) with
              | none => .error Err.structErr
              | some b2 => .ok { acc with eng := rset acc.eng idx (RecVal.blob b2) }
      | .ids ms =>
          let iset := iset0.getD ∅
          let oset := match o with
            | .or => iset ∪ ms
            | .sub => iset \ ms
          if iset ≠ oset then
            match pySet blob (strBytes kw) (some oset) [] none none with
            | none => .error Err.structErr
            | some b2 =>
                let cset := ((iset \ oset) ∪ (oset \ iset)) ∩ ms
                .ok { cset := acc.cset ∪ cset,
                      changes := acc.changes ++
                        [⟨kw, idx, dumbEncodeAsc (iset ∩ ms), dumbEncodeAsc (oset ∩ ms)⟩],
                      mutations := acc.mutations + 1,
                      eng := rset acc.eng idx (RecVal.blob b2) }
          else .ok acc

def mutOpsLoop (mset : MScope) : MutAcc → List (SetOp2 × String × Nat) →
    Except Err MutAcc
  | acc, [] => .ok acc
  | acc, (o, kw, idx) :: rest =>
      match mutOp acc mset o kw idx with
      | .error er => .error er
      | .ok acc2 => mutOpsLoop mset acc2 rest

def mutGroupLoop (tagNs : String) : MutAcc → List (MScope × List (PyOp × String)) →
    Except Err MutAcc
  | acc, [] => .ok acc
  | acc, (mset, opKws) :: rest =>
      match opKwsFlatten tagNs acc.eng opKws with
      | .error er => .error er
      | .ok (lst, e1) =>
          match mutOpsLoop mset { acc with eng := e1 } lst with
          | .error er => .error er
          | .ok acc2 => mutGroupLoop tagNs acc2 rest

/-- The dict `mutate` returns. -/
structure MutateRes where
  mutations : Nat
  changed : Finset Nat
  hist : Option HistEntry
  chs : List Change
deriving DecidableEq

instance : Inhabited MutateRes := ⟨⟨0, ∅, none, []⟩⟩

/-- `SearchEngine.mutate` (lines 639-732).  `rand` is the value of
`random.randint(0, 0xffffffffff)` and `now` of `int(time.time())`; both
are inputs of the model. -/
def mutate (e : Engine) (mlist : List (MScope × List (PyOp × String)))
    (recordHistory : Option String := none) (tagNs : String := "")
    (rand : Nat := 0) (now : Nat := 0) : Except Err (MutateRes × Engine) :=
  match mutGroupLoop tagNs ⟨∅, [], 0, e⟩ mlist with
  | .error er => .error er
  | .ok acc =>
      match recordHistory with
      | some cmt =>
          let pe := allocateHistorySlot acc.eng
          let hist : HistEntry :=
            ⟨fmtHex3 pe.1.1 ++ "-" ++ natToHex rand, now, cmt, pe.1.2, acc.changes⟩
          let e2 := rset pe.2 pe.1.1 (RecVal.hist hist)
          match touch e2 (some (isetElems acc.cset)) (some pe.1.2) now with
          | .error er => .error er
          | .ok (_, e3) => .ok (⟨acc.mutations, acc.cset, some hist, acc.changes⟩, e3)
      | none =>
          match touch acc.eng (some (isetElems acc.cset)) none now with
          | .error er => .error er
          | .ok (_, e3) => .ok (⟨acc.mutations, acc.cset, none, acc.changes⟩, e3)

/-- The mutation list `historic_mutations` builds from a changeset:
per change, decode the scoped before/after sets, swap them when undoing,
then emit `[add_bits, [('+', kw)]]` and `[sub_bits, [('-', kw)]]` for the
non-empty ones. -/
def buildMutations (undo : Bool) : List Change →
    Option (List (MScope × List (PyOp × String)))
  | [] => some []
  | c :: rest =>
      match dumbDecode c.encIset, dumbDecode c.encOset with
      | some (some i), some (some o) =>
          let p : Finset Nat × Finset Nat := if undo then (o, i) else (i, o)
          let addBits := p.2 \ p.1
          let subBits := p.1 \ p.2
          let entries :=
            (if addBits ≠ ∅ then [(MScope.ids addBits, [(PyOp.plus, c.kw)])] else [])
              ++ (if subBits ≠ ∅ then [(MScope.ids subBits, [(PyOp.minus, c.kw)])] else [])
          (buildMutations undo rest).map (entries ++ ·)
      | _, _ => none

/-- `SearchEngine.historic_mutations` (lines 571-617). -/
def historicMutations (e : Engine) (histId : String) (undo : Bool := false)
    (redo : Bool := false) : Except Err (List (MScope × List (PyOp × String))) :=
  if (undo ∧ redo) ∨ (¬undo ∧ ¬redo) then .error Err.valueErr
  else
    match pyIntHex (String.mk (histId.data.takeWhile (· ≠ '-'))) with
    | none => .error Err.valueErr
    | some slot =>
        match rget e slot with
        | some (RecVal.hist history) =>
            if history.hid ≠ histId then .error Err.keyErr
            else
              match buildMutations undo
                  (if undo then history.changes.reverse else history.changes) with
              | none => .error Err.valueErr
              | some muts => .ok muts
        | some _ => .error Err.typeErr
        | none => .error Err.keyErr

/-! ## Queries (`engine.py` lines 809-904, 926-966)

The operator trees `_search` evaluates: tuples `(op, arg, …)`, lists
(AND), strings and the symbolic `IntSet.All`. -/

inductive QOp where
  | and
  | or
  | sub
deriving DecidableEq

inductive Qry where
  | str (s : String)
  | all
  | op (o : QOp) (args : List Qry)
  | lst (args : List Qry)

/-- Modelled from the spec (4.1): the IntSet constructors `And(…)`,
`Or(…)` and `Sub(a, b, …)` fold their arguments (`Sub` subtracts the
rest from the first). -/
def applyQOp (o : QOp) : List (Finset Nat) → Finset Nat
  | [] => ∅
  | x :: xs =>
      match o with
      | .and => xs.foldl (· ∩ ·) x
      | .or => xs.foldl (· ∪ ·) x
      | .sub => xs.foldl (· \ ·) x

/-- Python `int(b)`-based parse of the comma-separated elements of an
`id:` list; `none` models the `ValueError` that makes `_id_list` return
`[]`. -/
def intRange (lo hi : Int) : List Int :=
  (List.range (hi - lo).toNat).map (fun (k : Nat) => lo + (k : Int))

def parseIdElems (mx : Nat) : List String → Option (List Int)
  | [] => some []
  | s :: rest =>
      if strIn ".." s then
        match pySplitSeq s ".." with
        | [b, t] =>
            match pyInt b, pyInt t with
            | some bv, some tv =>
                (parseIdElems mx rest).map (intRange bv (min (mx : Int) (tv + 1)) ++ ·)
            | _, _ => none
        | _ => none
      else
        match pyInt s with
        | some v => (parseIdElems mx rest).map (v :: ·)
        | none => none

/-- `SearchEngine._id_list` (lines 809-824).  The `I`/`S`/`T`/`Z` first
letters route through `dumb_decode` (an inline-encoded IntSet in the
query); its failure is treated as the caught `ValueError`.  An empty
argument raises `IndexError` at `ids[0]`. -/
def idList (e : Engine) (ids : String) : Except Err (List Int) :=
  match ids.data with
  | [] => .error Err.indexErr
  | c :: _ =>
      let l : List Int :=
        if c = 'I' ∨ c = 'S' ∨ c = 'T' ∨ c = 'Z' then
          match dumbDecode (strBytes ids) with
          | some (some s) => (isetElems s).map (fun n => (n : Int))
          | _ => []
        else
          match parseIdElems e.maxint (pySplitChar ids ',') with
          | some l => l
          | none => []
      .ok (l.filter (fun i => decide (0 ≤ i ∧ i ≤ (e.maxint : Int))))

def natListToFinset (l : List Int) : Finset Nat :=
  (l.map Int.toNat).toFinset

/-- The string branch of `_search` (lines 834-846): `tag:` alias, tag
namespacing, the `IntSet.All` aliases (which then take the symbolic-All
branch of lines 851-854), `id:`/`mid:` lists, else a bucket lookup. -/
def strEval (e : Engine) (tagNs : String) (s : String) : Except Err (Finset Nat) :=
  let t := if hasPre s "tag:" then "in:" ++ String.mk (s.data.drop 4) else s
  if tagNs ≠ "" ∧ hasPre t "in:" then getItem e (t ++ "@" ++ tagNs)
  else if t = "in:" ∨ t = "all:mail" ∨ t = "*" then
    (if tagNs ≠ "" then getItem e ("in:@" ++ tagNs) else .ok (Finset.range e.maxint))
  else if hasPre t "id:" ∨ hasPre t "mid:" then
    match idList e (String.mk ((t.data.dropWhile (· ≠ ':')).drop 1)) with
    | .error er => .error er
    | .ok l => .ok (natListToFinset l)
  else getItem e t

def evalListWith (f : Qry → Except Err (Finset Nat)) :
    List Qry → Except Err (List (Finset Nat))
  | [] => .ok []
  | q :: rest =>
      match f q, evalListWith f rest with
      | .ok v, .ok vs => .ok (v :: vs)
      | .error er, _ => .error er
      | _, .error er => .error er

/-- `SearchEngine._search` (lines 826-856), with an explicit nesting
budget `n` (the Python recursion is unbounded; every query tree the
engine builds has depth below any budget the callers pass, and the
evaluation is proven independent of the budget for those trees). -/
def qryEvalSteps (e : Engine) (tagNs : String) : Nat → Qry → Except Err (Finset Nat)
  | 0, _ => .error Err.valueErr
  | _ + 1, .str s => strEval e tagNs s
  | _ + 1, .all =>
      if tagNs ≠ "" then getItem e ("in:@" ++ tagNs) else .ok (Finset.range e.maxint)
  | n + 1, .op o args =>
      if args.isEmpty then .ok ∅
      else (evalListWith (qryEvalSteps e tagNs n) args).map (applyQOp o)
  | n + 1, .lst args =>
      (evalListWith (qryEvalSteps e tagNs n) args).map (applyQOp .and)

/-- `SearchEngine.magic_terms` and friends (lines 926-966). -/
def magicTermRemap (t : String) : String :=
  if t = "is:recent" then "date:recent"
  else if t = "is:unread" then "-in:read"
  else if t = "is:read" then "in:read"
  else t

def asciiLower (s : String) : String :=
  String.mk (s.data.map (fun c =>
    if 65 ≤ c.toNat ∧ c.toNat ≤ 90 then Char.ofNat (c.toNat + 32) else c))

/-- Modelled from the spec (4.5): `msg_id_hash` is a reproducible
27-character digest of the canonicalised Message-ID
(`util/mailpile.py` is not under `src/`); the model uses a hex digest of
a deterministic fold, which is all `msgid_hash_magic` needs. -/
def msgIdHash (s : String) : String :=
  natToHex ((strBytes s).foldl (fun h c => (h * 33 + c + 1) % 2 ^ 108) 5)

/-- `SearchEngine.msgid_hash_magic` (lines 935-939). -/
def msgidHashMagic (term : String) : String :=
  let msgid := String.mk ((term.data.dropWhile (· ≠ ':')).drop 1)
  if strIn "@" msgid ∨ strIn "<" msgid ∨ msgid.data.length = 27 then
    "msgid:" ++ msgIdHash msgid
  else term

/-- Modelled from the spec (4.4, magic rewrites): `date_term_magic`
(`search/dates.py` is not under `src/`) turns `date:YYYY` into the
stored `year:YYYY` keyword and a range `dates:YYYY..YYYY` into an OR of
year keywords; other date forms pass through unchanged (no property
below depends on them). -/
def dateTermMagic (term : String) (kwYear : String := "year") : Qry :=
  let body := String.mk ((term.data.dropWhile (· ≠ ':')).drop 1)
  if strIn ".." body then
    match pySplitSeq body ".." with
    | [b, t] =>
        match pyInt b, pyInt t with
        | some bv, some tv =>
            if 0 ≤ bv ∧ bv ≤ tv then
              Qry.op .or ((intRange bv (tv + 1)).map
                (fun y => Qry.str (kwYear ++ ":" ++ natToDec y.toNat)))
            else Qry.str term
        | _, _ => Qry.str term
    | _ => Qry.str term
  else
    match pyInt body with
    | some v => if 0 ≤ v then Qry.str (kwYear ++ ":" ++ natToDec v.toNat) else Qry.str term
    | none => Qry.str term

/-- Modelled from the spec (4.5): `version_term_magic`
(`search/versions.py` is not under `src/`) expands a `version:` query
into exact `version:<v>` keywords; an exact query keeps its form. -/
def versionTermMagic (term : String) (_curVer : Nat) : Qry :=
  Qry.str term

/-- Modelled from the spec (4.4): `candidates(pattern, max_results)` over
the wordblob content, here the modelled `partWords` list: at most
`max_results` words containing every non-wildcard fragment of the
pattern in order. -/
def dropAfterMatch (f : List Char) : List Char → Option (List Char)
  | [] => if f.isEmpty then some [] else none
  | c :: t =>
      if (c :: t).take f.length = f then some ((c :: t).drop f.length)
      else dropAfterMatch f t

def fragsInOrder : List (List Char) → List Char → Bool
  | [], _ => true
  | f :: fs, hay =>
      match dropAfterMatch f hay with
      | some rest => fragsInOrder fs rest
      | none => false

def candidates (e : Engine) (pattern : String) (maxResults : Nat) : List String :=
  (e.partWords.filter (fun w =>
    fragsInOrder ((splitCharAux '*' pattern.data []).filter (· ≠ [])) w.data)).take maxResults

/-- `SearchEngine.magic_candidates` (lines 956-966); `matches[0]` on an
empty candidate list raises `IndexError`. -/
def magicCandidates (e : Engine) (term : String) : Except Err Qry :=
  if term = "*" then .ok (Qry.str term)
  else
    let cands := candidates e term e.partialMatches
    if cands.length > 1 then .ok (Qry.op .or (cands.map Qry.str))
    else
      match cands with
      | [m] => .ok (Qry.str m)
      | _ => .error Err.indexErr

/-- `SearchEngine.magic_terms` (lines 941-951). -/
def magicTerms (e : Engine) (term0 : String) : Qry :=
  let term := magicTermRemap term0
  let what := asciiLower (String.mk (term.data.takeWhile (· ≠ ':')))
  if what = "message-id" ∨ what = "msgid" then Qry.str (msgidHashMagic term)
  else if what = "in" ∨ what = "tag" then Qry.str (tagQuoteMagic term)
  else if what = "date" ∨ what = "dates" then dateTermMagic term "year"
  else if what = "version" then versionTermMagic term e.histVer
  else if what = "vdate" ∨ what = "vdates" then dateTermMagic term "vdate"
  else Qry.str term

/-- The per-leaf magic walk (spec 4.4: `@` → `magic_emails` which the
source makes a no-op, `:` → `magic_terms`, `*` → `magic_candidates`). -/
def applyMagic (e : Engine) (t : String) : Except Err Qry :=
  if strIn "@" t then .ok (Qry.str t)
  else if strIn ":" t then .ok (magicTerms e t)
  else if strIn "*" t then magicCandidates e t
  else .ok (Qry.str t)

/-- Modelled from the spec (4.4 Queries): `greedy_parse_terms`
(`search/parse_greedy.py` is not under `src/`).  Whitespace separates
AND-ed terms and each leaf is rewritten through the magic map; the
`OR`, negation and parenthesis syntax of the full grammar is not used by
any property below and is not modelled. -/
def mapMagic (e : Engine) : List String → Except Err (List Qry)
  | [] => .ok []
  | t :: ts =>
      match applyMagic e t, mapMagic e ts with
      | .ok q, .ok qs => .ok (q :: qs)
      | .error er, _ => .error er
      | _, .error er => .error er

def parseTerms (e : Engine) (s : String) : Except Err Qry :=
  let toks := (pySplitChar s ' ').filter (fun t => t ≠ "")
  match toks with
  | [t] => applyMagic e t
  | ts =>
      match mapMagic e ts with
      | .error er => .error er
      | .ok qs => .ok (Qry.op .and qs)

/-- `SearchEngine.search` (lines 864-904) for a text query.  The
`explain` flag only repackages the return value and is not modelled. -/
def search (e : Engine) (terms : String) (tagNs : String := "")
    (maskDeleted : Bool := true) (maskTags : List String := [])
    (moreTerms : Option String := none) : Except Err (Finset Nat) :=
  match parseTerms e terms with
  | .error er => .error er
  | .ok ops0 =>
      match (match moreTerms with
             | some mt => (parseTerms e mt).map (fun m => Qry.op .and [ops0, m])
             | none => .ok ops0) with
      | .error er => .error er
      | .ok ops1 =>
          let ops2 := if tagNs ≠ "" then Qry.op .and [Qry.all, ops1] else ops1
          let opsF :=
            if maskTags ≠ [] then
              let masking := maskTags.filter (fun tag => !(strIn tag terms))
              if masking ≠ [] ∧ masking.length = maskTags.length then
                Qry.op .sub (ops2 :: masking.map Qry.str)
              else ops2
            else ops2
          match qryEvalSteps e tagNs 100 opsF with
          | .error er => .error er
          | .ok rv => .ok (if maskDeleted then rv \ e.deleted else rv)

/-! ## Claim C2 and C8: keyword placement -/

theorem find?_range'_first (s n : Nat) (f : Nat → Bool) (idx : Nat)
    (h : (List.range' s n).find? f = some idx) :
    s ≤ idx ∧ idx < s + n ∧ f idx = true ∧ ∀ j, s ≤ j → j < idx → f j = false := by
  induction n generalizing s with
  | zero => simp [List.range'] at h
  | succ n ih =>
      rw [List.range'_succ] at h
      by_cases hs : f s
      · rw [List.find?_cons_of_pos _ hs] at h
        obtain rfl : s = idx := by simpa using h
        exact ⟨le_refl s, by omega, hs, fun j h1 h2 => by omega⟩
      · rw [List.find?_cons_of_neg _ hs] at h
        obtain ⟨h1, h2, h3, h4⟩ := ih (s + 1) h
        refine ⟨by omega, by omega, h3, ?_⟩
        intro j hj1 hj2
        rcases Nat.eq_or_lt_of_le hj1 with rfl | hlt
        · simpa using hs
        · exact h4 j hlt hj2

/-- Claim C2: `keyword_index(kw, prefer_l1, create)` (1) returns the index
stored in the hashed-key map when the map holds the keyword; (2) else,
when the effective `prefer_l1` is truthy (defaulting, for an unset
`prefer_l1`, to true exactly when the keyword starts with `in:`) and
`create` holds, it returns the first unoccupied record index of the L1
region `[l1_begin, l2_begin)` after claiming it with `set_key` and
writing an empty bucket; (3) else it returns `l2_begin` plus the first
four hash bytes read as a little-endian u32 modulo `l2_buckets`. -/
theorem keyword_index_spec (e : Engine) (kw : String) (p : Option Bool) (c : Bool) :
    (p = none →
      ((if p = none ∧ hasPre kw "in:" then some true else p).getD false = true
        ↔ hasPre kw "in:" = true))
    ∧ (∀ idx, lookupKeys e (hashKey kw) = some idx →
        keywordIndex e kw p c = .ok (idx, e))
    ∧ (lookupKeys e (hashKey kw) = none →
        (if p = none ∧ hasPre kw "in:" then some true else p).getD false = true →
        c = true →
        ∀ idx, emptyL1Idx e = some idx →
          keywordIndex e kw p c = .ok (idx, rset (setKey e kw idx) idx (RecVal.blob []))
          ∧ l1Begin ≤ idx ∧ idx < l2Begin e ∧ rcontains e idx = false
          ∧ (∀ j, l1Begin ≤ j → j < idx → rcontains e j = true))
    ∧ (lookupKeys e (hashKey kw) = none →
        ¬((if p = none ∧ hasPre kw "in:" then some true else p).getD false = true ∧ c = true) →
        keywordIndex e kw p c =
          .ok (leVal ((hashKey kw).take 4) % e.l2Buckets + l2Begin e, e)) := by
  refine ⟨?_, ?_, ?_, ?_⟩
  · intro hp
    rw [hp]
    by_cases hin : hasPre kw "in:"
    · simp [hin]
    · simp [hin]
  · intro idx hidx
    simp only [keywordIndex]
    rw [hidx]
  · intro hlook hp hc idx hidx
    have hfind := find?_range'_first l1Begin e.l1Keywords _ idx hidx
    refine ⟨?_, hfind.1, by have := hfind.2.1; unfold l2Begin; omega, ?_, ?_⟩
    · simp only [keywordIndex]
      rw [hlook]
      rw [if_pos ⟨hp, hc⟩, hidx]
    · have := hfind.2.2.1
      simpa using this
    · intro j h1 h2
      have := hfind.2.2.2 j h1 h2
      simpa using this
  · intro hlook hnot
    simp only [keywordIndex]
    rw [hlook, if_neg hnot]

/-- Concrete engine for the keyword-placement witnesses: a two-slot L1
region, slot 2001 occupied. -/
def engC2 : Engine := ⟨[(2001, RecVal.blob [1])], [], 2, 7, none, 1, 1, {0}, [], [], 25⟩

/-- Witness for C2: the L1-claim branch allocates slot 2002, the first
free index. -/
theorem keyword_index_spec_witness :
    (lookupKeys engC2 (hashKey "in:x") = none
      ∧ (if (none : Option Bool) = none ∧ hasPre "in:x" "in:" then some true
          else (none : Option Bool)).getD false = true
      ∧ emptyL1Idx engC2 = some 2002)
    ∧ (keywordIndex engC2 "in:x" none true =
          .ok (2002, rset (setKey engC2 "in:x" 2002) 2002 (RecVal.blob []))
        ∧ l1Begin ≤ 2002 ∧ 2002 < l2Begin engC2 ∧ rcontains engC2 2002 = false
        ∧ (∀ j, l1Begin ≤ j → j < 2002 → rcontains engC2 j = true)) :=
  ⟨⟨by decide, by decide, by decide⟩,
    (keyword_index_spec engC2 "in:x" none true).2.2.1
      (by decide) (by decide) rfl 2002 (by decide)⟩

/-- Claim C8: when every L1 index is occupied and `keyword_index` is asked
to create an L1 slot for an unknown keyword, the code executes
`raise None` (a `TypeError`), not the defined
`StorageError('L1 region exhausted')` the spec mandates; it does not
fall back to an L2 bucket either. -/
theorem l1_exhausted_raises_typeerror (e : Engine) (kw : String)
    (hlook : lookupKeys e (hashKey kw) = none)
    (hp : hasPre kw "in:" = true)
    (hfull : ∀ idx ∈ List.range' l1Begin e.l1Keywords, rcontains e idx = true) :
    keywordIndex e kw none true = .error Err.typeErr
    ∧ keywordIndex e kw none true ≠ .error (Err.storageErr "L1 region exhausted")
    ∧ ∀ r, keywordIndex e kw none true ≠ .ok r := by
  have hempty : emptyL1Idx e = none := by
    unfold emptyL1Idx
    rw [List.find?_eq_none]
    intro x hx
    simp [hfull x hx]
  have hmain : keywordIndex e kw none true = .error Err.typeErr := by
    simp only [keywordIndex]
    rw [hlook]
    rw [if_pos ⟨by simp [hp], by trivial⟩, hempty]
  exact ⟨hmain, by rw [hmain]; simp, fun r => by rw [hmain]; simp⟩

/-- Concrete engine for C8: both L1 slots occupied. -/
def engC8 : Engine :=
  ⟨[(2001, RecVal.blob [1]), (2002, RecVal.blob [1])], [], 2, 7, none, 1, 1, {0}, [], [], 25⟩

/-- Witness for C8. -/
theorem l1_exhausted_raises_typeerror_witness :
    (lookupKeys engC8 (hashKey "in:full") = none
      ∧ hasPre "in:full" "in:" = true
      ∧ ∀ idx ∈ List.range' l1Begin engC8.l1Keywords, rcontains engC8 idx = true)
    ∧ keywordIndex engC8 "in:full" none true = .error Err.typeErr :=
  ⟨⟨by decide, by decide, by decide⟩,
    (l1_exhausted_raises_typeerror engC8 "in:full" (by decide) (by decide) (by decide)).1⟩

/-! ## Engine field frame lemmas -/

@[simp] theorem rset_histVer (e : Engine) (idx : Nat) (v : RecVal) :
    (rset e idx v).histVer = e.histVer := by
  unfold rset
  split <;> rfl

@[simp] theorem rset_histPos (e : Engine) (idx : Nat) (v : RecVal) :
    (rset e idx v).histPos = e.histPos := by
  unfold rset
  split <;> rfl

@[simp] theorem rset_keys (e : Engine) (idx : Nat) (v : RecVal) :
    (rset e idx v).keys = e.keys := by
  unfold rset
  split <;> rfl

@[simp] theorem rset_maxint (e : Engine) (idx : Nat) (v : RecVal) :
    (rset e idx v).maxint = e.maxint := by
  unfold rset
  split <;> rfl

@[simp] theorem rset_deleted (e : Engine) (idx : Nat) (v : RecVal) :
    (rset e idx v).deleted = e.deleted := by
  unfold rset
  split <;> rfl

@[simp] theorem rset_l1Keywords (e : Engine) (idx : Nat) (v : RecVal) :
    (rset e idx v).l1Keywords = e.l1Keywords := by
  unfold rset
  split <;> rfl

@[simp] theorem rset_l2Buckets (e : Engine) (idx : Nat) (v : RecVal) :
    (rset e idx v).l2Buckets = e.l2Buckets := by
  unfold rset
  split <;> rfl

@[simp] theorem rset_pending (e : Engine) (idx : Nat) (v : RecVal) :
    (rset e idx v).pending = e.pending := by
  unfold rset
  split <;> rfl

@[simp] theorem setKey_histVer (e : Engine) (kw : String) (idx : Nat) :
    (setKey e kw idx).histVer = e.histVer := rfl

@[simp] theorem setKey_histPos (e : Engine) (kw : String) (idx : Nat) :
    (setKey e kw idx).histPos = e.histPos := rfl

@[simp] theorem setKey_recs (e : Engine) (kw : String) (idx : Nat) :
    (setKey e kw idx).recs = e.recs := rfl

@[simp] theorem setKey_maxint (e : Engine) (kw : String) (idx : Nat) :
    (setKey e kw idx).maxint = e.maxint := rfl

@[simp] theorem setKey_deleted (e : Engine) (kw : String) (idx : Nat) :
    (setKey e kw idx).deleted = e.deleted := rfl

@[simp] theorem setKey_l1Keywords (e : Engine) (kw : String) (idx : Nat) :
    (setKey e kw idx).l1Keywords = e.l1Keywords := rfl

@[simp] theorem setKey_l2Buckets (e : Engine) (kw : String) (idx : Nat) :
    (setKey e kw idx).l2Buckets = e.l2Buckets := rfl

theorem keywordIndex_histVer (e : Engine) (kw : String) (p : Option Bool) (c : Bool)
    (idx : Nat) (e2 : Engine) (h : keywordIndex e kw p c = .ok (idx, e2)) :
    e2.histVer = e.histVer ∧ e2.histPos = e.histPos := by
  simp only [keywordIndex] at h
  rcases hl : lookupKeys e (hashKey kw) with _ | i
  · rw [hl] at h
    by_cases hc : (if p = none ∧ hasPre kw "in:" = true then some true else p).getD false = true ∧ c = true
    · rw [if_pos hc] at h
      rcases he : emptyL1Idx e with _ | j
      · rw [he] at h
        cases h
      · rw [he] at h
        cases h
        simp
    · rw [if_neg hc] at h
      cases h
      exact ⟨rfl, rfl⟩
  · rw [hl] at h
    cases h
    exact ⟨rfl, rfl⟩

theorem tagIdxLoop_cons (e : Engine) (t : String × (Bytes × Finset Nat))
    (rest : List (String × (Bytes × Finset Nat))) :
    tagIdxLoop e (t :: rest) =
      match keywordIndex e t.1 none false with
      | .error er => .error er
      | .ok (idx, e1) =>
          match tagIdxLoop e1 rest with
          | .error er => .error er
          | .ok (l, e2) => .ok ((SetOp2.sub, t.1, idx) :: l, e2) := rfl

theorem tagIdxLoop_histVer (tags : List (String × (Bytes × Finset Nat)))
    (e : Engine) (l : List (SetOp2 × String × Nat)) (e2 : Engine)
    (h : tagIdxLoop e tags = .ok (l, e2)) :
    e2.histVer = e.histVer ∧ e2.histPos = e.histPos := by
  induction tags generalizing e l with
  | nil =>
      simp only [tagIdxLoop] at h
      cases h
      exact ⟨rfl, rfl⟩
  | cons t rest ih =>
      rw [tagIdxLoop_cons] at h
      rcases hk : keywordIndex e t.1 none false with er | ⟨i, e1⟩ <;> rw [hk] at h
      · cases h
      · rcases hr : tagIdxLoop e1 rest with er | ⟨l2, e3⟩ <;> simp only [hr] at h
        · cases h
        · cases h
          have h1 := keywordIndex_histVer e t.1 none false i e1 hk
          have h2 := ih e1 l2 hr
          exact ⟨h2.1.trans h1.1, h2.2.trans h1.2⟩

/-- `mutOp` only rewrites the record store: `history['ver']` and
`history['pos']` are untouched. -/
theorem mutOp_histVer (acc : MutAcc) (mset : MScope) (o : SetOp2) (kw : String)
    (idx : Nat) (acc2 : MutAcc) (h : mutOp acc mset o kw idx = .ok acc2) :
    acc2.eng.histVer = acc.eng.histVer ∧ acc2.eng.histPos = acc.eng.histPos := by
  rcases hg : pyGetFull (blobAtD acc.eng idx) (strBytes kw) with _ | ⟨comment, iset0⟩
  · simp only [mutOp, hg] at h
    cases h
  · rcases mset with ms | d
    · rcases o with _ | _ <;> simp only [mutOp, hg, ne_eq] at h
      · by_cases hne : iset0.getD ∅ = iset0.getD ∅ ∪ ms
        · rw [if_neg (by simpa using hne)] at h
          cases h
          exact ⟨rfl, rfl⟩
        · rw [if_pos (by simpa using hne)] at h
          split at h
          · cases h
          · cases h
            simp
      · by_cases hne : iset0.getD ∅ = iset0.getD ∅ \ ms
        · rw [if_neg (by simpa using hne)] at h
          cases h
          exact ⟨rfl, rfl⟩
        · rw [if_pos (by simpa using hne)] at h
          split at h
          · cases h
          · cases h
            simp
    · simp only [mutOp, hg, ne_eq] at h
      rcases hf : (if ¬comment = [] then fromJson comment else some []) with _ | cd <;>
        simp only [hf] at h
      · cases h
      · split at h
        · cases h
        · cases h
          simp

theorem mutOpsLoop_histVer (mset : MScope) (ops : List (SetOp2 × String × Nat))
    (acc acc2 : MutAcc) (h : mutOpsLoop mset acc ops = .ok acc2) :
    acc2.eng.histVer = acc.eng.histVer ∧ acc2.eng.histPos = acc.eng.histPos := by
  induction ops generalizing acc with
  | nil =>
      simp only [mutOpsLoop] at h
      cases h
      exact ⟨rfl, rfl⟩
  | cons op rest ih =>
      simp only [mutOpsLoop] at h
      split at h
      · cases h
      · rename_i hop
        have h1 := mutOp_histVer _ _ _ _ _ _ hop
        have h2 := ih _ h
        exact ⟨h2.1.trans h1.1, h2.2.trans h1.2⟩

theorem opKwi_histVer (e : Engine) (tagNs : String) (op : PyOp) (kw : String)
    (l : List (SetOp2 × String × Nat)) (e2 : Engine)
    (h : opKwi e tagNs op kw = .ok (l, e2)) :
    e2.histVer = e.histVer ∧ e2.histPos = e.histPos := by
  simp only [opKwi] at h
  rcases hn : opNorm op with er | o <;> simp only [hn] at h
  · cases h
  · by_cases hstar : kw = "in:*" ∨ kw = tagQuote "in:*"
    · rw [if_pos hstar] at h
      cases o
      · cases h
        exact ⟨rfl, rfl⟩
      · rcases hit : iterTags e tagNs with er | tags <;> simp only [hit] at h
        · cases h
        · exact tagIdxLoop_histVer tags e l e2 h
    · rw [if_neg hstar] at h
      rcases hns : nsApply kw tagNs with er | kw2 <;> simp only [hns] at h
      · cases h
      · split at h
        · cases h
        · rename_i hki
          cases h
          have h2 := keywordIndex_histVer _ _ _ _ _ _ hki
          exact h2

theorem opKwsFlatten_histVer (tagNs : String) (opKws : List (PyOp × String))
    (e : Engine) (l : List (SetOp2 × String × Nat)) (e2 : Engine)
    (h : opKwsFlatten tagNs e opKws = .ok (l, e2)) :
    e2.histVer = e.histVer ∧ e2.histPos = e.histPos := by
  induction opKws generalizing e l with
  | nil =>
      simp only [opKwsFlatten] at h
      cases h
      exact ⟨rfl, rfl⟩
  | cons p rest ih =>
      simp only [opKwsFlatten] at h
      split at h
      · cases h
      · rename_i hop
        split at h
        · cases h
        · rename_i hrest
          cases h
          have h1 := opKwi_histVer _ _ _ _ _ _ hop
          have h2 := ih _ _ hrest
          exact ⟨h2.1.trans h1.1, h2.2.trans h1.2⟩

theorem mutGroupLoop_histVer (tagNs : String)
    (mlist : List (MScope × List (PyOp × String))) (acc acc2 : MutAcc)
    (h : mutGroupLoop tagNs acc mlist = .ok acc2) :
    acc2.eng.histVer = acc.eng.histVer ∧ acc2.eng.histPos = acc.eng.histPos := by
  induction mlist generalizing acc with
  | nil =>
      simp only [mutGroupLoop] at h
      cases h
      exact ⟨rfl, rfl⟩
  | cons g rest ih =>
      simp only [mutGroupLoop] at h
      split at h
      · cases h
      · rename_i hf
        split at h
        · cases h
        · rename_i hops
          have h1 := opKwsFlatten_histVer _ _ _ _ _ hf
          have h2 := mutOpsLoop_histVer _ _ _ _ hops
          have h3 := ih _ h
          exact ⟨h3.1.trans (h2.1.trans h1.1), h3.2.trans (h2.2.trans h1.2)⟩

theorem kwIdxLoop_histVer (preferL1 : Option Bool) (create : Bool)
    (kws : List String) (e : Engine) (l : List (Nat × String)) (e2 : Engine)
    (h : kwIdxLoop preferL1 create e kws = .ok (l, e2)) :
    e2.histVer = e.histVer ∧ e2.histPos = e.histPos := by
  induction kws generalizing e l with
  | nil =>
      simp only [kwIdxLoop] at h
      cases h
      exact ⟨rfl, rfl⟩
  | cons k rest ih =>
      simp only [kwIdxLoop] at h
      split at h
      · cases h
      · rename_i hk
        split at h
        · cases h
        · rename_i hr
          cases h
          have h1 := keywordIndex_histVer _ _ _ _ _ _ hk
          have h2 := ih _ _ hr
          exact ⟨h2.1.trans h1.1, h2.2.trans h1.2⟩

/-- `_prep_results` with `touch=False` (the `add_results` call made by
`touch()` itself) does not move the version counter. -/
theorem prepResults_histVer (e : Engine) (results : List (List Nat × List String))
    (preferL1 : Option Bool) (tagNs : String) (create : Bool) (now : Nat)
    (kil : List (Nat × String)) (kwMap : List (String × Finset Nat))
    (hits : List Nat) (e2 : Engine)
    (h : prepResults e results preferL1 tagNs false create now
           = .ok (kil, kwMap, hits, e2)) :
    e2.histVer = e.histVer ∧ e2.histPos = e.histPos := by
  simp only [prepResults, Bool.false_eq_true, if_false] at h
  split at h
  · cases h
  · rename_i hk
    cases h
    have h2 := kwIdxLoop_histVer _ _ _ _ _ _ hk
    exact h2

theorem addWriteLoop_histVer (kwMap : List (String × Finset Nat))
    (kil : List (Nat × String)) (e e2 : Engine)
    (h : addWriteLoop kwMap e kil = .ok e2) :
    e2.histVer = e.histVer ∧ e2.histPos = e.histPos := by
  induction kil generalizing e with
  | nil =>
      simp only [addWriteLoop] at h
      cases h
      exact ⟨rfl, rfl⟩
  | cons p rest ih =>
      simp only [addWriteLoop] at h
      split at h
      · cases h
      · rename_i b2 hb
        have h2 := ih (rset e p.1 (RecVal.blob b2)) h
        simp only [rset_histVer, rset_histPos] at h2
        exact h2

/-- `add_results(…, touch=False)` does not move the version counter. -/
theorem addResults_histVer (e : Engine) (results : List (List Nat × List String))
    (preferL1 : Option Bool) (tagNs : String) (now : Nat)
    (out : Nat × List Nat) (e2 : Engine)
    (h : addResults e results preferL1 tagNs false now = .ok (out, e2)) :
    e2.histVer = e.histVer ∧ e2.histPos = e.histPos := by
  simp only [addResults] at h
  split at h
  · cases h
  · rename_i hp
    split at h
    · cases h
    · rename_i hw
      cases h
      have h1 := prepResults_histVer _ _ _ _ true _ _ _ _ _ hp
      have h2 := addWriteLoop_histVer _ _ _ _ hw
      exact ⟨h2.1.trans h1.1, h2.2.trans h1.2⟩

theorem touchBump_histVer (e : Engine) (now : Nat) :
    (touchBump e now).2.histVer = e.histVer + 1 ∧
    (touchBump e now).2.histPos = e.histPos := by
  simp [touchBump]

/-- `touch(…, version=v)` with an explicit version does not bump the
version counter. -/
theorem touch_histVer_some (e : Engine) (ids : Option (List Nat)) (v now : Nat)
    (out : List String) (e2 : Engine)
    (h : touch e ids (some v) now = .ok (out, e2)) :
    e2.histVer = e.histVer ∧ e2.histPos = e.histPos := by
  simp only [touch] at h
  split at h
  · cases h
    exact ⟨rfl, rfl⟩
  · split at h
    · cases h
    · rename_i ha
      cases h
      have h2 := addResults_histVer _ _ _ _ _ _ _ ha
      exact h2

/-- `touch(…, version=None)` bumps the version counter by exactly one. -/
theorem touch_histVer_none (e : Engine) (ids : Option (List Nat)) (now : Nat)
    (out : List String) (e2 : Engine)
    (h : touch e ids none now = .ok (out, e2)) :
    e2.histVer = e.histVer + 1 ∧ e2.histPos = e.histPos := by
  simp only [touch] at h
  split at h
  · injection h with h1
    have h3 : e2 = (touchBump e now).2 := (congrArg Prod.snd h1).symm
    rw [h3]
    exact touchBump_histVer e now
  · split at h
    · cases h
    · rename_i ha
      cases h
      have h1 := addResults_histVer _ _ _ _ _ _ _ ha
      have h2 := touchBump_histVer e now
      exact ⟨h1.1.trans h2.1, h1.2.trans h2.2⟩

theorem allocateHistorySlot_histVer (e : Engine) :
    (allocateHistorySlot e).1.2 = e.histVer + 1 ∧
    (allocateHistorySlot e).2.histVer = e.histVer + 1 := by
  constructor
  · rfl
  · simp [allocateHistorySlot]

/-- C4: every history-slot allocation sets `pos` to the previous `pos`
plus one, except that a `pos` that would exceed `IDX_HISTORY_END = 2000`
wraps back to `IDX_HISTORY_START = 1001` (an engine with no slot yet
behaves as if the previous `pos` were 2000), and it increments the
version counter `ver` by exactly one; consequently, after any successful
`mutate` call — with or without `record_history` — the global version
counter is strictly larger than before the call (in fact exactly one
larger: without `record_history` the final `touch()` bumps it, with
`record_history` the allocation bumps it and `touch(…, version=ver)`
keeps it). -/
theorem history_slot_and_version (e : Engine)
    (mlist : List (MScope × List (PyOp × String))) (rh : Option String)
    (tagNs : String) (rand now : Nat) (res : MutateRes) (e2 : Engine)
    (h : mutate e mlist rh tagNs rand now = .ok (res, e2)) :
    (allocateHistorySlot e).1.2 = e.histVer + 1 ∧
    (allocateHistorySlot e).1.1 =
      (if e.histPos.getD idxHistoryEnd + 1 > idxHistoryEnd then idxHistoryStart
       else e.histPos.getD idxHistoryEnd + 1) ∧
    e.histVer < e2.histVer ∧ e2.histVer = e.histVer + 1 := by
  refine ⟨rfl, rfl, ?_⟩
  suffices hs : e2.histVer = e.histVer + 1 by
    exact ⟨by omega, hs⟩
  simp only [mutate] at h
  split at h
  · cases h
  · rename_i hacc
    split at h
    · split at h
      · cases h
      · rename_i ht
        cases h
        have h1 := mutGroupLoop_histVer _ _ _ _ hacc
        have h2 := touch_histVer_some _ _ _ _ _ _ ht
        refine h2.1.trans ?_
        rw [rset_histVer]
        rw [(allocateHistorySlot_histVer _).2]
        rw [h1.1]
    · split at h
      · cases h
      · rename_i ht
        cases h
        have h1 := mutGroupLoop_histVer _ _ _ _ hacc
        have h2 := touch_histVer_none _ _ _ _ _ ht
        refine h2.1.trans ?_
        rw [h1.1]

/-- A concrete engine for the C4 witness: one L1 slot, one bucket, no
history slot yet, version counter 5. -/
def engC4 : Engine := ⟨[], [], 1, 1, none, 5, 0, ∅, [], [], 25⟩

/-- Witness for the C4 theorem: the empty `mutate` call on `engC4`
succeeds and bumps the version counter from 5 to 6. -/
theorem history_slot_and_version_witness :
    (mutate engC4 [] none "" 0 0 = Except.ok (getOk (mutate engC4 [] none "" 0 0))) ∧
    (getOk (mutate engC4 [] none "" 0 0)).2.histVer = engC4.histVer + 1 :=
  ⟨by decide,
   (history_slot_and_version engC4 [] none "" 0 0
      (getOk (mutate engC4 [] none "" 0 0)).1
      (getOk (mutate engC4 [] none "" 0 0)).2 (by decide)).2.2.2⟩

/-! ## Claim C7: `id:` / `mid:` list queries -/

/-- A small engine to add results into: two L1 slots, three buckets. -/
def engC7base : Engine := ⟨[], [], 2, 3, none, 0, 0, ∅, [], [], 25⟩

/-- `engC7base` after `add_results([[10, 11, 12, 20], ["x"]])`: ids
10, 11, 12 and 20 are indexed under the keyword `x` and
`maxint = 21`. -/
def engC7 : Engine :=
  (getOk (addResults engC7base [([10, 11, 12, 20], ["x"])] none "" true 0)).2

set_option maxRecDepth 40000 in
/-- C7 counterexample: with ids 10, 11, 12, 20 added, `search('id:10..12,20')`
does yield `{10, 11, 12, 20}`, but `search('id:5..9')` yields `{5, 6, 7, 8, 9}`
and not the empty set the claim predicts: `_id_list` expands the written list
against `maxint` alone and never consults the index. -/
theorem id_range_ignores_index :
    getItem engC7 "x" = .ok ({10, 11, 12, 20} : Finset Nat) ∧
    search engC7 "id:10..12,20" "" true [] none = .ok ({10, 11, 12, 20} : Finset Nat) ∧
    search engC7 "id:5..9" "" true [] none = .ok ({5, 6, 7, 8, 9} : Finset Nat) ∧
    ¬ search engC7 "id:5..9" "" true [] none = .ok (∅ : Finset Nat) := by
  decide

/-- C7 (amended): a `_search` term `id:<list>` (or `mid:<list>`) whose body
does not start with an inline-IntSet marker (`I`/`S`/`T`/`Z`) evaluates to
exactly the integers written in the list — the comma-separated elements
parsed by `parseIdElems`, with every range `a..b` expanded to
`[a, min(maxint, b+1))` and every element finally filtered to
`0 ≤ i ≤ maxint` — independently of which ids the index holds: any engine
with the same `maxint` gives the same answer, `mid:` behaves exactly as
`id:`, and a range element contributes precisely the `i` with
`a ≤ i ≤ b` and `i < maxint` (so a range is clipped strictly below
`maxint`, not at `maxint` as the original claim says, and the result is
not intersected with the ids actually present). -/
theorem id_term_search (e : Engine) (body : String) (n : Nat)
    (c : Char) (rest : List Char)
    (hb : body.data = c :: rest)
    (hc : ¬(c = 'I' ∨ c = 'S' ∨ c = 'T' ∨ c = 'Z')) :
    (qryEvalSteps e "" (n + 1) (Qry.str ("id:" ++ body)) =
       .ok (natListToFinset
         (((parseIdElems e.maxint (pySplitChar body ',')).getD []).filter
           (fun i => decide (0 ≤ i ∧ i ≤ (e.maxint : Int)))))) ∧
    (qryEvalSteps e "" (n + 1) (Qry.str ("mid:" ++ body)) =
       qryEvalSteps e "" (n + 1) (Qry.str ("id:" ++ body))) ∧
    (∀ e2 : Engine, e2.maxint = e.maxint →
       qryEvalSteps e2 "" (n + 1) (Qry.str ("id:" ++ body)) =
         qryEvalSteps e "" (n + 1) (Qry.str ("id:" ++ body))) ∧
    (∀ b t i : Int, i ∈ intRange b (min (e.maxint : Int) (t + 1)) ↔
       b ≤ i ∧ i ≤ t ∧ i < (e.maxint : Int)) := by
  have hdata : ("id:" ++ body).data = 'i' :: 'd' :: ':' :: body.data := by
    simp [String.data_append]
  have hdata2 : ("mid:" ++ body).data = 'm' :: 'i' :: 'd' :: ':' :: body.data := by
    simp [String.data_append]
  have hmain : ∀ e' : Engine, e'.maxint = e.maxint →
      qryEvalSteps e' "" (n + 1) (Qry.str ("id:" ++ body)) =
        .ok (natListToFinset
          (((parseIdElems e.maxint (pySplitChar body ',')).getD []).filter
            (fun i => decide (0 ≤ i ∧ i ≤ (e.maxint : Int))))) := by
    intro e' hmx
    show strEval e' "" ("id:" ++ body) = _
    have h1 : hasPre ("id:" ++ body) "tag:" = false := by
      simp [hasPre, hdata, hb]
    have harg : String.mk ((("id:" ++ body).data.dropWhile (· ≠ ':')).drop 1) = body := by
      rw [hdata]
      have h2 : ((('i' :: 'd' :: ':' :: body.data).dropWhile (· ≠ ':')).drop 1)
          = body.data := by
        simp [List.dropWhile]
      rw [h2]
    simp only [strEval, h1, Bool.false_eq_true, if_false]
    rw [if_neg (by simp)]
    rw [if_neg (show ¬("id:" ++ body = "in:" ∨ "id:" ++ body = "all:mail" ∨
        "id:" ++ body = "*") by simp [String.ext_iff, hdata])]
    rw [if_pos (Or.inl (show hasPre ("id:" ++ body) "id:" = true by
        simp [hasPre, hdata]))]
    rw [harg]
    simp only [idList, hb]
    rw [if_neg hc, hmx]
    rcases hp : parseIdElems e.maxint (pySplitChar body ',') with _ | l <;> simp [hp]
  have hmid : qryEvalSteps e "" (n + 1) (Qry.str ("mid:" ++ body)) =
      .ok (natListToFinset
        (((parseIdElems e.maxint (pySplitChar body ',')).getD []).filter
          (fun i => decide (0 ≤ i ∧ i ≤ (e.maxint : Int))))) := by
    show strEval e "" ("mid:" ++ body) = _
    have h1 : hasPre ("mid:" ++ body) "tag:" = false := by
      simp [hasPre, hdata2]
    have harg : String.mk ((("mid:" ++ body).data.dropWhile (· ≠ ':')).drop 1) = body := by
      rw [hdata2]
      have h2 : ((('m' :: 'i' :: 'd' :: ':' :: body.data).dropWhile (· ≠ ':')).drop 1)
          = body.data := by
        simp [List.dropWhile]
      rw [h2]
    simp only [strEval, h1, Bool.false_eq_true, if_false]
    rw [if_neg (by simp)]
    rw [if_neg (show ¬("mid:" ++ body = "in:" ∨ "mid:" ++ body = "all:mail" ∨
        "mid:" ++ body = "*") by simp [String.ext_iff, hdata2])]
    rw [if_pos (Or.inr (show hasPre ("mid:" ++ body) "mid:" = true by
        simp [hasPre, hdata2]))]
    rw [harg]
    simp only [idList, hb]
    rw [if_neg hc]
    rcases hp : parseIdElems e.maxint (pySplitChar body ',') with _ | l <;> simp [hp]
  refine ⟨hmain e rfl, hmid.trans (hmain e rfl).symm,
    fun e2 hmx => (hmain e2 hmx).trans (hmain e rfl).symm, ?_⟩
  intro b t i
  simp only [intRange, List.mem_map, List.mem_range]
  constructor
  · rintro ⟨k, hk, rfl⟩
    rcases le_total ((e.maxint : Int)) (t + 1) with hm | hm
    · rw [min_eq_left hm] at hk
      omega
    · rw [min_eq_right hm] at hk
      omega
  · rintro ⟨h1, h2, h3⟩
    refine ⟨(i - b).toNat, ?_, by omega⟩
    rcases le_total ((e.maxint : Int)) (t + 1) with hm | hm
    · rw [min_eq_left hm]
      omega
    · rw [min_eq_right hm]
      omega

/-- Witness for the C7 theorem: `id:10..12,20` on `engC7` (`maxint = 21`). -/
theorem id_term_search_witness :
    ("10..12,20".data = '1' :: "0..12,20".data ∧
      ¬('1' = 'I' ∨ '1' = 'S' ∨ '1' = 'T' ∨ '1' = 'Z')) ∧
    qryEvalSteps engC7 "" 100 (Qry.str ("id:" ++ "10..12,20")) =
      .ok (natListToFinset
        (((parseIdElems engC7.maxint (pySplitChar "10..12,20" ',')).getD []).filter
          (fun i => decide (0 ≤ i ∧ i ≤ (engC7.maxint : Int))))) :=
  ⟨⟨by decide, by decide⟩,
   (id_term_search engC7 "10..12,20" 99 '1' "0..12,20".data
      (by decide) (by decide)).1⟩

/-! ## Claim C5: the `in:*` expansion in `mutate` -/

/-- Every entry of the `in:*` subtraction expansion is a `sub` on the
corresponding yielded tag. -/
theorem tagIdxLoop_shape (tags : List (String × (Bytes × Finset Nat)))
    (e : Engine) (l : List (SetOp2 × String × Nat)) (e2 : Engine)
    (h : tagIdxLoop e tags = .ok (l, e2)) :
    l.map (fun p => (p.1, p.2.1)) = tags.map (fun t => (SetOp2.sub, t.1)) := by
  induction tags generalizing e l with
  | nil =>
      simp only [tagIdxLoop] at h
      cases h
      rfl
  | cons t rest ih =>
      rw [tagIdxLoop_cons] at h
      rcases hk : keywordIndex e t.1 none false with er | ⟨i, e1⟩ <;> rw [hk] at h
      · cases h
      · rcases hr : tagIdxLoop e1 rest with er | ⟨l2, e3⟩ <;> simp only [hr] at h
        · cases h
        · cases h
          simp [ih _ _ hr]

/-- C5 (amended): in `mutate`, the operand keyword `in:*` expands — for a
subtraction op `'-'` — into one `(sub, tag, keyword_index(tag))` entry per
tag yielded by `iter_tags` over the active namespace, so the subtraction
is applied to every such tag; for a union op `'+'` the expansion is the
empty operation list on the unchanged engine: `mutate` raises no error
for `'+' in:*` (contrary to the claim), the op is silently dropped. -/
theorem in_star_expansion (e : Engine) (tagNs : String)
    (tags : List (String × (Bytes × Finset Nat)))
    (hit : iterTags e tagNs = .ok tags) :
    opKwi e tagNs PyOp.minus "in:*" = tagIdxLoop e tags ∧
    (∀ l e2, tagIdxLoop e tags = .ok (l, e2) →
       l.map (fun p => (p.1, p.2.1)) = tags.map (fun t => (SetOp2.sub, t.1))) ∧
    opKwi e tagNs PyOp.plus "in:*" = .ok ([], e) := by
  refine ⟨?_, fun l e2 h => tagIdxLoop_shape tags e l e2 h, ?_⟩
  · simp only [opKwi, opNorm]
    rw [if_pos (Or.inl trivial)]
    simp only [hit]
  · simp only [opKwi, opNorm]
    rw [if_pos (Or.inl trivial)]

/-- A concrete engine with one tag: the L1 slot 2001 holds a bucket whose
single triple is `in:spam` with ids `{1, 2}`, registered in the key map. -/
def engC5 : Engine :=
  ⟨[(2001, RecVal.blob (serBucket [⟨strBytes "in:spam", [], some ({1, 2} : Finset Nat)⟩]))],
   [(hashKey "in:spam", 2001)], 2, 2, none, 0, 3, ∅, [], [], 25⟩

/-- C5 counterexample: a `mutate` whose only op is `('+', 'in:*')`
returns `ok` — zero mutations, no changes, no error — on an engine that
does carry a tag the union could have targeted. -/
theorem in_star_union_not_error :
    (mutate engC5 [(MScope.ids {1}, [(PyOp.plus, "in:*")])] none "" 0 0
       = Except.ok (getOk (mutate engC5 [(MScope.ids {1}, [(PyOp.plus, "in:*")])] none "" 0 0))) ∧
    (getOk (mutate engC5 [(MScope.ids {1}, [(PyOp.plus, "in:*")])] none "" 0 0)).1.mutations = 0 ∧
    (getOk (mutate engC5 [(MScope.ids {1}, [(PyOp.plus, "in:*")])] none "" 0 0)).1.chs = [] ∧
    getItem engC5 "in:spam" = .ok ({1, 2} : Finset Nat) := by
  decide

/-- Witness for the C5 theorem at `engC5`: its `iter_tags` yields exactly
the tag `in:spam` with ids `{1, 2}`. -/
theorem in_star_expansion_witness :
    (iterTags engC5 "" = .ok [("in:spam", ([], ({1, 2} : Finset Nat)))]) ∧
    opKwi engC5 "" PyOp.minus "in:*"
      = tagIdxLoop engC5 [("in:spam", ([], ({1, 2} : Finset Nat)))] ∧
    opKwi engC5 "" PyOp.plus "in:*" = .ok ([], engC5) :=
  ⟨by decide,
   (in_star_expansion engC5 "" [("in:spam", ([], ({1, 2} : Finset Nat)))] (by decide)).1,
   (in_star_expansion engC5 "" [("in:spam", ([], ({1, 2} : Finset Nat)))] (by decide)).2.2⟩

/-! ## Claim C9: `engine[keyword]` totality -/

/-- Value-level parser of a bucket blob: the inverse of `serBucket`,
walking the packed triples like `PostingListBucket.items`. -/
def parseBucketLoop : Nat → Bytes → Option (List VTriple)
  | _, [] => some []
  | 0, _ :: _ => none
  | fuel + 1, b :: bs =>
      match unpackHHI (b :: bs) with
      | none => none
      | some (kwLn, cLn, isLn) =>
          let rest0 := (b :: bs).drop 8
          match dumbDecode (((rest0.drop kwLn).drop cLn).take isLn) with
          | none => none
          | some v =>
              (parseBucketLoop fuel ((b :: bs).drop (8 + kwLn + cLn + isLn))).map
                (fun l => ⟨rest0.take kwLn, (rest0.drop kwLn).take cLn, v⟩ :: l)

def parseBucketVB (blob : Bytes) : Option (List VTriple) :=
  parseBucketLoop (blob.length + 1) blob

/-- A blob is well formed when it parses into triples that serialize back
to it byte for byte and each triple respects the `<HHI` field limits. -/
def wfBlob (blob : Bytes) : Bool :=
  match parseBucketVB blob with
  | none => false
  | some ts => decide (serBucket ts = blob) && decide (∀ t ∈ ts, TripleOK t)

theorem wfBlob_spec (blob : Bytes) (h : wfBlob blob = true) :
    ∃ ts, parseBucketVB blob = some ts ∧ serBucket ts = blob ∧ ∀ t ∈ ts, TripleOK t := by
  unfold wfBlob at h
  rcases hp : parseBucketVB blob with _ | ts <;> rw [hp] at h
  · cases h
  · rw [Bool.and_eq_true, decide_eq_true_eq, decide_eq_true_eq] at h
    exact ⟨ts, rfl, h.1, h.2⟩

/-- Well-formedness of every record of the store (a non-blob record reads
as the empty blob on the bucket paths, which is well formed). -/
def recsWF (e : Engine) : Bool :=
  e.recs.all (fun p => match p.2 with
    | RecVal.blob b => wfBlob b
    | _ => true)

theorem recsWF_blobAtD (e : Engine) (idx : Nat) (h : recsWF e = true) :
    wfBlob (blobAtD e idx) = true := by
  unfold blobAtD rget
  rcases hf : e.recs.find? (fun p => p.1 = idx) with _ | p <;>
    simp only [hf, Option.map_some', Option.map_none']
  · decide
  · have hm := List.all_eq_true.mp h p (List.mem_of_find?_eq_some hf)
    rcases hv : p.2 with b | h2 | ⟨st1, st2⟩ <;> rw [hv] at hm
    · exact hm
    · show wfBlob [] = true
      decide
    · show wfBlob [] = true
      decide

/-- The index `keyword_index(kw, create=False)` resolves to, as a pure
function: the key-map hit, else the hashed L2 bucket. -/
def kwIdxRO (e : Engine) (kw : String) : Nat :=
  match lookupKeys e (hashKey kw) with
  | some idx => idx
  | none => leVal ((hashKey kw).take 4) % e.l2Buckets + l2Begin e

theorem keywordIndex_ro (e : Engine) (kw : String) :
    keywordIndex e kw none false = .ok (kwIdxRO e kw, e) := by
  simp only [keywordIndex, kwIdxRO]
  rcases hl : lookupKeys e (hashKey kw) with _ | i <;> simp only [hl]
  rw [if_neg (by simp)]

/-- C9: the subscript lookup `engine[kw]` always returns an IntSet on a
well-formed record store: `keyword_index(kw, create=False)` never raises
(a key-map miss falls through to the hashed L2 bucket), and when the
resolved bucket holds no triple for `kw` — in particular when the record
is absent and reads as the empty blob — the result is the empty IntSet,
not `None` and not a `KeyError`. -/
theorem getitem_always_intset (e : Engine) (kw : String) (hwf : recsWF e = true) :
    (∃ s : Finset Nat, getItem e kw = .ok s) ∧
    (∀ ts, parseBucketVB (blobAtD e (kwIdxRO e kw)) = some ts →
       strBytes kw ∉ bKws ts → getItem e kw = .ok (∅ : Finset Nat)) := by
  obtain ⟨ts, hp, hser, hok⟩ := wfBlob_spec _ (recsWF_blobAtD e (kwIdxRO e kw) hwf)
  have hget : getItem e kw = .ok (if isetTruthy (bFind ts (strBytes kw)).2
      then (bFind ts (strBytes kw)).2.getD ∅ else ∅) := by
    simp only [getItem, keywordIndex_ro]
    rw [← hser, pyGetFull_serBucket ts _ hok]
  refine ⟨⟨_, hget⟩, ?_⟩
  intro ts2 hp2 habs
  rw [hp] at hp2
  cases hp2
  have hbf : bFind ts (strBytes kw) = ([], none) := by
    apply bFold_of_no_match
    intro t ht he
    exact habs (List.mem_map.mpr ⟨t, ht, he⟩)
  rw [hget, hbf]
  rfl

/-- Witness for the C9 theorem at `engC5`: an unknown keyword reads as
the empty IntSet, the present tag reads as some IntSet. -/
theorem getitem_always_intset_witness :
    recsWF engC5 = true ∧
    getItem engC5 "nokw" = .ok (∅ : Finset Nat) ∧
    (∃ s : Finset Nat, getItem engC5 "in:spam" = .ok s) :=
  ⟨by decide,
   (getitem_always_intset engC5 "nokw" (by decide)).2 [] (by decide) (by decide),
   (getitem_always_intset engC5 "in:spam" (by decide)).1⟩

/-! ## Claim C6: mask_tags -/

/-- Nesting depth bound on an operator tree: `QDepth d q` says every
path of `q` has fewer than `d` levels. -/
def QDepth : Nat → Qry → Prop
  | 0, _ => False
  | _ + 1, .str _ => True
  | _ + 1, .all => True
  | d + 1, .op _ args => ∀ q ∈ args, QDepth d q
  | d + 1, .lst args => ∀ q ∈ args, QDepth d q

theorem QDepth_mono (d : Nat) : ∀ q, QDepth d q → QDepth (d + 1) q := by
  induction d with
  | zero =>
      intro q h
      exact h.elim
  | succ d ih =>
      intro q h
      cases q with
      | str s => trivial
      | all => trivial
      | op o args => exact fun q hq => ih q (h q hq)
      | lst args => exact fun q hq => ih q (h q hq)

theorem QDepth_le (d d2 : Nat) (q : Qry) (h : QDepth d q) (hle : d ≤ d2) :
    QDepth d2 q := by
  induction d2 with
  | zero =>
      cases Nat.le_zero.mp hle
      exact h
  | succ d2 ih =>
      rcases Nat.lt_or_ge d (d2 + 1) with hlt | hge
      · exact QDepth_mono d2 q (ih (by omega))
      · have : d = d2 + 1 := by omega
        subst this
        exact h

theorem evalListWith_congr (f g : Qry → Except Err (Finset Nat))
    (args : List Qry) (h : ∀ q ∈ args, f q = g q) :
    evalListWith f args = evalListWith g args := by
  induction args with
  | nil => rfl
  | cons q rest ih =>
      simp only [evalListWith]
      rw [h q (by simp), ih (fun x hx => h x (by simp [hx]))]

/-- Evaluation of a depth-bounded tree does not depend on the fuel, as
long as the fuel covers the depth. -/
theorem qryEvalSteps_depth_inv (e : Engine) (tagNs : String) :
    ∀ d q, QDepth d q → ∀ n m, d ≤ n → d ≤ m →
      qryEvalSteps e tagNs n q = qryEvalSteps e tagNs m q := by
  intro d
  induction d with
  | zero =>
      intro q h
      exact h.elim
  | succ d ih =>
      intro q h n m hn hm
      cases n with
      | zero => omega
      | succ n =>
          cases m with
          | zero => omega
          | succ m =>
              cases q with
              | str s => rfl
              | all => rfl
              | op o args =>
                  simp only [qryEvalSteps]
                  by_cases he : args.isEmpty
                  · rw [if_pos he, if_pos he]
                  · rw [if_neg he, if_neg he]
                    rw [evalListWith_congr (qryEvalSteps e tagNs n) (qryEvalSteps e tagNs m)
                      args (fun q hq => ih q (h q hq) n m (by omega) (by omega))]
              | lst args =>
                  simp only [qryEvalSteps]
                  rw [evalListWith_congr (qryEvalSteps e tagNs n) (qryEvalSteps e tagNs m)
                    args (fun q hq => ih q (h q hq) n m (by omega) (by omega))]

theorem dateTermMagic_depth (t kw : String) : QDepth 2 (dateTermMagic t kw) := by
  have hop : ∀ l : List Int,
      QDepth 2 (Qry.op .or (l.map (fun y => Qry.str (kw ++ ":" ++ natToDec y.toNat)))) := by
    intro l q hq
    obtain ⟨y, hy, rfl⟩ := List.mem_map.mp hq
    trivial
  simp only [dateTermMagic]
  repeat' split
  all_goals first | exact hop _ | trivial

theorem magicTerms_depth (e : Engine) (t : String) : QDepth 2 (magicTerms e t) := by
  simp only [magicTerms, versionTermMagic]
  repeat' split
  all_goals first | exact dateTermMagic_depth _ _ | trivial

theorem magicCandidates_depth (e : Engine) (t : String) (q : Qry)
    (h : magicCandidates e t = .ok q) : QDepth 2 q := by
  simp only [magicCandidates] at h
  split at h
  · cases h
    trivial
  · by_cases hlen : 1 < (candidates e t e.partialMatches).length
    · rw [if_pos hlen] at h
      cases h
      intro x hx
      obtain ⟨y, hy, rfl⟩ := List.mem_map.mp hx
      trivial
    · rw [if_neg hlen] at h
      split at h
      · cases h
        trivial
      · cases h

theorem applyMagic_depth (e : Engine) (t : String) (q : Qry)
    (h : applyMagic e t = .ok q) : QDepth 2 q := by
  unfold applyMagic at h
  split at h
  · cases h
    trivial
  · split at h
    · cases h
      exact magicTerms_depth e t
    · split at h
      · exact magicCandidates_depth e t q h
      · cases h
        trivial

theorem mapMagic_mem (e : Engine) (ts : List String) (qs : List Qry)
    (h : mapMagic e ts = .ok qs) :
    ∀ q ∈ qs, ∃ t ∈ ts, applyMagic e t = .ok q := by
  induction ts generalizing qs with
  | nil =>
      simp only [mapMagic] at h
      cases h
      intro q hq
      cases hq
  | cons t rest ih =>
      simp only [mapMagic] at h
      split at h
      · rename_i q1 qs1 h1 h2
        cases h
        intro q hq
        rcases List.mem_cons.mp hq with rfl | hq2
        · exact ⟨t, by simp, h1⟩
        · obtain ⟨t2, ht2, he2⟩ := ih qs1 h2 q hq2
          exact ⟨t2, by simp [ht2], he2⟩
      · cases h
      · cases h

theorem parseTerms_depth (e : Engine) (s : String) (q : Qry)
    (h : parseTerms e s = .ok q) : QDepth 3 q := by
  simp only [parseTerms] at h
  split at h
  · exact QDepth_mono 2 q (applyMagic_depth e _ q h)
  · split at h
    · cases h
    · rename_i qs hm
      cases h
      intro x hx
      obtain ⟨t, ht, he⟩ := mapMagic_mem e _ qs hm x hx
      exact applyMagic_depth e t x he

theorem foldl_union_acc (ys : List (Finset Nat)) (a : Finset Nat) :
    ys.foldl (· ∪ ·) a = a ∪ ys.foldl (· ∪ ·) ∅ := by
  induction ys generalizing a with
  | nil => simp
  | cons y ys ih =>
      simp only [List.foldl_cons]
      rw [ih (a ∪ y), ih (∅ ∪ y)]
      simp [Finset.union_assoc]

/-- `Sub(x, y₁, …, yₙ)` is `x` minus the union of the rest. -/
theorem foldl_sdiff_union (ys : List (Finset Nat)) (x : Finset Nat) :
    ys.foldl (· \ ·) x = x \ ys.foldl (· ∪ ·) ∅ := by
  induction ys generalizing x with
  | nil => simp
  | cons y ys ih =>
      simp only [List.foldl_cons]
      rw [ih (x \ y), foldl_union_acc ys (∅ ∪ y)]
      rw [sdiff_sdiff]
      simp

/-- C6 (amended): `search` masks all-or-nothing, not per tag.  With a
non-empty `mask_tags`: if some mask tag occurs as a substring of the
query text, NO tag is subtracted — the result equals the unmasked
search — and only when every mask tag is absent from the query text does
the search subtract, and then it subtracts every mask tag's IntSet (the
query is wrapped in `Sub(ops, *masking)`), so the result is the unmasked
result minus the union of all the mask tags' sets. -/
theorem search_mask_all_or_nothing (e : Engine) (terms tagNs : String)
    (maskTags : List String) (maskDeleted : Bool) (hmt : maskTags ≠ []) :
    ((∃ tag ∈ maskTags, strIn tag terms = true) →
       search e terms tagNs maskDeleted maskTags none =
         search e terms tagNs maskDeleted [] none) ∧
    ((∀ tag ∈ maskTags, strIn tag terms = false) →
       ∀ v tvs,
         search e terms tagNs maskDeleted [] none = .ok v →
         evalListWith (qryEvalSteps e tagNs 99) (maskTags.map Qry.str) = .ok tvs →
         search e terms tagNs maskDeleted maskTags none =
           .ok (v \ tvs.foldl (· ∪ ·) ∅)) := by
  constructor
  · rintro ⟨tag, htag, hin⟩
    rcases hpt : parseTerms e terms with er | ops0 <;> simp only [search, hpt]
    have hlt : ((maskTags.filter (fun tag => !(strIn tag terms))).length
        < maskTags.length) :=
      List.length_filter_lt_length_iff_exists.mpr ⟨tag, htag, by simp [hin]⟩
    rw [if_pos hmt]
    rw [if_neg (show ¬((maskTags.filter (fun tag => !(strIn tag terms))) ≠ [] ∧
        (maskTags.filter (fun tag => !(strIn tag terms))).length = maskTags.length)
      from fun hc => absurd hc.2 (by omega))]
    rw [if_neg (show ¬(([] : List String) ≠ []) by simp)]
  · intro hall v tvs hv htv
    rcases hpt : parseTerms e terms with er | ops0
    · simp only [search, hpt] at hv
      cases hv
    · have hdp := parseTerms_depth e terms ops0 hpt
      simp only [search, hpt] at hv ⊢
      rw [if_neg (show ¬(([] : List String) ≠ []) by simp)] at hv
      have hd2 : QDepth 5 (if tagNs ≠ "" then Qry.op QOp.and [Qry.all, ops0] else ops0) := by
        by_cases ht : tagNs ≠ ""
        · rw [if_pos ht]
          intro q hq
          rcases List.mem_cons.mp hq with rfl | hq2
          · trivial
          · rcases List.mem_cons.mp hq2 with rfl | hq3
            · exact QDepth_le 3 4 _ hdp (by omega)
            · cases hq3
        · rw [if_neg ht]
          exact QDepth_le 3 5 _ hdp (by omega)
      rcases hev : qryEvalSteps e tagNs 100
          (if tagNs ≠ "" then Qry.op QOp.and [Qry.all, ops0] else ops0)
          with er | rv <;> rw [hev] at hv <;> simp only [] at hv
      · cases hv
      · cases hv
        rw [if_pos hmt]
        have hfeq : maskTags.filter (fun tag => !(strIn tag terms)) = maskTags :=
          List.filter_eq_self.mpr (fun a ha => by simp [hall a ha])
        rw [hfeq]
        rw [if_pos ⟨hmt, rfl⟩]
        have hev99 : qryEvalSteps e tagNs 99
            (if tagNs ≠ "" then Qry.op QOp.and [Qry.all, ops0] else ops0) = .ok rv :=
          (qryEvalSteps_depth_inv e tagNs 5 _ hd2 99 100 (by omega) (by omega)).trans hev
        have heval : qryEvalSteps e tagNs 100
            (Qry.op QOp.sub
              ((if tagNs ≠ "" then Qry.op QOp.and [Qry.all, ops0] else ops0)
                :: maskTags.map Qry.str)) =
            (evalListWith (qryEvalSteps e tagNs 99)
              ((if tagNs ≠ "" then Qry.op QOp.and [Qry.all, ops0] else ops0)
                :: maskTags.map Qry.str)).map (applyQOp QOp.sub) := by
          show (if _ then _ else _) = _
          rw [if_neg (by simp)]
        rw [heval]
        simp only [evalListWith, hev99, htv]
        simp only [Except.map, applyQOp, foldl_sdiff_union]
        rcases maskDeleted with _ | _ <;> simp [sdiff_right_comm]

/-- An engine with two tags: `in:spam` holds `{1, 2}`, `in:trash` holds
`{2, 3}`. -/
def engC6 : Engine :=
  ⟨[(2001, RecVal.blob (serBucket [⟨strBytes "in:spam", [], some ({1, 2} : Finset Nat)⟩])),
    (2002, RecVal.blob (serBucket [⟨strBytes "in:trash", [], some ({2, 3} : Finset Nat)⟩]))],
   [(hashKey "in:spam", 2001), (hashKey "in:trash", 2002)],
   2, 2, none, 0, 4, ∅, [], [], 25⟩

set_option maxRecDepth 40000 in
/-- C6 counterexample: searching `in:spam` with
`mask_tags=['in:spam','in:trash']` subtracts nothing — the result keeps
id 2 which lies in `in:trash` — although the claim says `in:trash` (which
does not appear in the query text) should be subtracted, which would
leave `{1}`. -/
theorem mask_tags_not_per_tag :
    getItem engC6 "in:trash" = .ok ({2, 3} : Finset Nat) ∧
    search engC6 "in:spam" "" true ["in:spam", "in:trash"] none
      = .ok ({1, 2} : Finset Nat) ∧
    ¬ search engC6 "in:spam" "" true ["in:spam", "in:trash"] none
      = .ok ({1} : Finset Nat) := by
  decide

set_option maxRecDepth 40000 in
/-- Witness for the C6 theorem at `engC6`: all-absent masking subtracts
the union of the mask tags, a mask tag present in the query text disables
masking entirely. -/
theorem search_mask_all_or_nothing_witness :
    (search engC6 "in:spam" "" true ["in:trash"] none =
       .ok (({1, 2} : Finset Nat) \ [({2, 3} : Finset Nat)].foldl (· ∪ ·) ∅)) ∧
    (search engC6 "in:spam" "" true ["in:spam", "in:trash"] none =
       search engC6 "in:spam" "" true [] none) :=
  ⟨(search_mask_all_or_nothing engC6 "in:spam" "" ["in:trash"] true
      (by decide)).2 (by decide) ({1, 2} : Finset Nat) [({2, 3} : Finset Nat)]
      (by decide) (by decide),
   (search_mask_all_or_nothing engC6 "in:spam" "" ["in:spam", "in:trash"] true
      (by decide)).1 ⟨"in:spam", by decide, by decide⟩⟩

/-! ## Claim C1: undo of recorded mutations -/

theorem find?_filter_ne (l : List (Nat × RecVal)) (idx : Nat) :
    (l.filter (fun p => p.1 ≠ idx)).find? (fun p => p.1 = idx) = none := by
  rw [List.find?_eq_none]
  intro x hx
  rw [List.mem_filter] at hx
  simpa using hx.2

theorem find?_filter_of_ne (l : List (Nat × RecVal)) (idx j : Nat) (hne : j ≠ idx) :
    (l.filter (fun p => p.1 ≠ idx)).find? (fun p => p.1 = j) =
      l.find? (fun p => p.1 = j) := by
  induction l with
  | nil => rfl
  | cons p t ih =>
      by_cases hp : p.1 = idx
      · rw [List.filter_cons_of_neg (by simpa using hp)]
        rw [ih, List.find?_cons_of_neg _ (by simp [hp, hne.symm])]
      · rw [List.filter_cons_of_pos (by simpa using hp)]
        by_cases hj : p.1 = j
        · rw [List.find?_cons_of_pos _ (by simpa using hj),
            List.find?_cons_of_pos _ (by simpa using hj)]
        · rw [List.find?_cons_of_neg _ (by simpa using hj),
            List.find?_cons_of_neg _ (by simpa using hj), ih]

theorem blobAtD_rset_self (e : Engine) (idx : Nat) (b : Bytes) :
    blobAtD (rset e idx (RecVal.blob b)) idx = b := by
  unfold rset
  by_cases hb : RecVal.blob b = RecVal.blob []
  · rw [if_pos hb]
    unfold blobAtD rget
    simp only [find?_filter_ne, Option.map_none']
    cases hb
    rfl
  · rw [if_neg hb]
    unfold blobAtD rget
    rw [List.find?_cons_of_pos _ (by simp)]
    rfl

theorem rget_rset_ne (e : Engine) (idx j : Nat) (v : RecVal) (hne : j ≠ idx) :
    rget (rset e idx v) j = rget e j := by
  unfold rset
  split
  · unfold rget
    rw [find?_filter_of_ne _ _ _ hne]
  · unfold rget
    rw [List.find?_cons_of_neg _ (by simp [hne.symm]), find?_filter_of_ne _ _ _ hne]

theorem blobAtD_rset_ne (e : Engine) (idx j : Nat) (v : RecVal) (hne : j ≠ idx) :
    blobAtD (rset e idx v) j = blobAtD e j := by
  unfold blobAtD
  rw [rget_rset_ne _ _ _ _ hne]

theorem applySet_nodup (ts : List VTriple) (bkw : Bytes) (iset : Option (Finset Nat))
    (bc : Bytes) (hnd : (bKws ts).Nodup) :
    (bKws (applySet ts bkw iset bc)).Nodup := by
  unfold applySet bKws
  rw [List.map_append, List.nodup_append]
  refine ⟨bKws_filter_nodup ts bkw hnd, ?_, ?_⟩
  · split <;> simp
  · intro x hx hy
    split at hy
    · rw [List.map_singleton, List.mem_singleton] at hy
      rw [hy] at hx
      exact bkw_not_mem_filter ts bkw hx
    · cases hy

theorem bFind_applySet_self (ts : List VTriple) (bkw : Bytes)
    (iset : Option (Finset Nat)) (bc : Bytes) (hnd : (bKws ts).Nodup) :
    bFind (applySet ts bkw iset bc) bkw =
      if bc ≠ [] ∨ isetTruthy iset then (bc, iset) else ([], none) := by
  rw [bFind_eq_bLookup _ _ (applySet_nodup ts bkw iset bc hnd)]
  unfold bLookup applySet
  have hnf : (ts.filter (fun t => t.kw ≠ bkw)).find? (fun t => t.kw = bkw) = none := by
    rw [List.find?_eq_none]
    intro x hx
    rw [List.mem_filter] at hx
    simpa using hx.2
  by_cases hkeep : bc ≠ [] ∨ isetTruthy iset
  · rw [if_pos hkeep, if_pos hkeep, List.find?_append, hnf]
    rw [List.find?_cons_of_pos _ (by simp)]
    rfl
  · rw [if_neg hkeep, if_neg hkeep, List.append_nil, hnf]

theorem find?_filter_kw_of_ne (ts : List VTriple) (bkw bk2 : Bytes)
    (hne : bk2 ≠ bkw) :
    (ts.filter (fun t => t.kw ≠ bkw)).find? (fun t => t.kw = bk2) =
      ts.find? (fun t => t.kw = bk2) := by
  induction ts with
  | nil => rfl
  | cons t rest ih =>
      by_cases hp : t.kw = bkw
      · rw [List.filter_cons_of_neg (by simpa using hp)]
        rw [ih, List.find?_cons_of_neg _ (by simp [hp, Ne.symm hne])]
      · rw [List.filter_cons_of_pos (by simpa using hp)]
        by_cases hj : t.kw = bk2
        · rw [List.find?_cons_of_pos _ (by simpa using hj),
            List.find?_cons_of_pos _ (by simpa using hj)]
        · rw [List.find?_cons_of_neg _ (by simpa using hj),
            List.find?_cons_of_neg _ (by simpa using hj), ih]

theorem bFind_applySet_other (ts : List VTriple) (bkw : Bytes)
    (iset : Option (Finset Nat)) (bc : Bytes) (bk2 : Bytes) (hne : bk2 ≠ bkw)
    (hnd : (bKws ts).Nodup) :
    bFind (applySet ts bkw iset bc) bk2 = bFind ts bk2 := by
  rw [bFind_eq_bLookup _ _ (applySet_nodup ts bkw iset bc hnd),
    bFind_eq_bLookup ts bk2 hnd]
  unfold bLookup applySet
  have htail : (if bc ≠ [] ∨ isetTruthy iset
      then [(⟨bkw, bc, iset⟩ : VTriple)] else []).find? (fun t => t.kw = bk2) = none := by
    split
    · rw [List.find?_cons_of_neg _ (by simp [Ne.symm hne])]
      rfl
    · rfl
  rw [List.find?_append, find?_filter_kw_of_ne ts bkw bk2 hne, htail]
  rcases hf : ts.find? (fun t => t.kw = bk2) with _ | t2 <;> rw [hf] <;> rfl

/-- Python-visible value of a keyword in a bucket: its comment and the
IntSet `get` reports (falsy stored values read as the empty IntSet). -/
def obsAt (e : Engine) (idx : Nat) (bkw : Bytes) : Option (Bytes × Finset Nat) :=
  (pyGetFull (blobAtD e idx) bkw).map
    (fun r => (r.1, if isetTruthy r.2 then r.2.getD ∅ else ∅))

/-- Success inversion of the `pySetCore` tail: the lengths passed the
`struct.pack` checks and the blob is the rebuilt chunk list. -/
theorem pySetCore_inv (bkw : Bytes) (iset : Option (Finset Nat)) (ch : List Bytes)
    (bc0 : Bytes) (b2 : Bytes)
    (h : pySetCore bkw iset [] ch bc0 = some b2) :
    (¬(bc0 ≠ [] ∨ isetTruthy iset) ∧ b2 = ch.flatten) ∨
    ((bc0 ≠ [] ∨ isetTruthy iset) ∧ bkw.length < 2 ^ 16 ∧ bc0.length < 2 ^ 16 ∧
      (dumbEncodeBin iset).length < 2 ^ 32 ∧
      b2 = (ch ++ [packHHI bkw.length bc0.length (dumbEncodeBin iset).length, bkw, bc0,
        dumbEncodeBin iset]).flatten) := by
  simp only [pySetCore] at h
  rw [if_neg (show ¬(([] : Bytes) ≠ []) by simp)] at h
  by_cases hkeep : bc0 ≠ [] ∨ isetTruthy iset
  · rw [if_pos hkeep] at h
    by_cases hlen : bkw.length < 2 ^ 16 ∧ bc0.length < 2 ^ 16 ∧
        (dumbEncodeBin iset).length < 2 ^ 32
    · rw [if_pos hlen] at h
      cases h
      right
      exact ⟨hkeep, hlen.1, hlen.2.1, hlen.2.2, rfl⟩
    · rw [if_neg hlen] at h
      cases h
  · rw [if_neg hkeep] at h
    cases h
    left
    exact ⟨hkeep, rfl⟩

/-- Success inversion of `PostingListBucket.set` on a well-formed bucket:
the new blob is the serialized `applySet` and stays well formed. -/
theorem pySet_none_inv (ts : List VTriple) (bkw : Bytes) (iset : Option (Finset Nat))
    (hOK : ∀ t ∈ ts, TripleOK t) (b2 : Bytes)
    (h : pySet (serBucket ts) bkw iset [] none none = some b2) :
    b2 = serBucket (applySet ts bkw iset (bFind ts bkw).1) ∧
    (∀ t ∈ applySet ts bkw iset (bFind ts bkw).1, TripleOK t) := by
  simp only [pySet] at h
  rw [pyFindIset_serBucket ts bkw hOK, Option.some_bind] at h
  rcases pySetCore_inv bkw iset _ _ b2 h with ⟨hnk, hb⟩ | ⟨hk, h1, h2, h3, hb⟩
  · have happ : applySet ts bkw iset (bFind ts bkw).1 =
        ts.filter (fun t => t.kw ≠ bkw) := by
      unfold applySet
      rw [if_neg hnk, List.append_nil]
    constructor
    · rw [hb, happ]
      rfl
    · intro t ht
      rw [happ] at ht
      exact hOK t (List.mem_filter.mp ht).1
  · have happ : applySet ts bkw iset (bFind ts bkw).1 =
        ts.filter (fun t => t.kw ≠ bkw) ++ [⟨bkw, (bFind ts bkw).1, iset⟩] := by
      unfold applySet
      rw [if_pos hk]
    constructor
    · rw [hb, happ]
      exact serBucket_append_new (ts.filter (fun t => t.kw ≠ bkw))
        ⟨bkw, (bFind ts bkw).1, iset⟩
    · intro t ht
      rw [happ, List.mem_append] at ht
      rcases ht with ht | ht
      · exact hOK t (List.mem_filter.mp ht).1
      · rw [List.mem_singleton] at ht
        subst ht
        exact ⟨h1, h2, h3⟩

/-- The encoded current IntSet of a keyword in a well-formed bucket fits
the `<HHI` IntSet-length field. -/
theorem bFind_getD_enc_length (ts : List VTriple) (bkw : Bytes)
    (hOK : ∀ t ∈ ts, TripleOK t) :
    (dumbEncodeBin (some ((bFind ts bkw).2.getD ∅))).length < 2 ^ 32 := by
  show (dumbEncodeBin (some ((bFold ts bkw ([], none)).2.getD ∅))).length < 2 ^ 32
  rcases bFold_acc_cases ts bkw ([], none) with hb | ⟨t, ht, hb⟩
  · rw [hb]
    decide
  · rw [hb]
    rcases hiv : t.iv with _ | s
    · simp only [Option.getD_none]
      decide
    · simp only [Option.getD_some]
      have hlen := (hOK t ht).2.2
      rw [hiv] at hlen
      exact hlen

theorem normalize_getD (iv : Option (Finset Nat)) :
    (if isetTruthy iv then iv.getD ∅ else ∅) = iv.getD ∅ := by
  rcases iv with _ | s
  · simp [isetTruthy]
  · by_cases hs : s = ∅ <;> simp [isetTruthy, hs]

theorem applySet_TripleOK (ts : List VTriple) (bkw : Bytes)
    (iset : Option (Finset Nat)) (bc : Bytes) (hOK : ∀ t ∈ ts, TripleOK t)
    (hnew : TripleOK ⟨bkw, bc, iset⟩) :
    ∀ t ∈ applySet ts bkw iset bc, TripleOK t := by
  intro t ht
  unfold applySet at ht
  rw [List.mem_append] at ht
  rcases ht with ht | ht
  · exact hOK t (List.mem_filter.mp ht).1
  · split at ht
    · rw [List.mem_singleton] at ht
      subst ht
      exact hnew
    · cases ht

theorem bkw_len_of_v0_ne (ts : List VTriple) (bkw : Bytes)
    (hOK : ∀ t ∈ ts, TripleOK t) (hnd : (bKws ts).Nodup)
    (hne : (bFind ts bkw).2.getD ∅ ≠ ∅) : bkw.length < 2 ^ 16 := by
  rw [bFind_eq_bLookup ts bkw hnd] at hne
  unfold bLookup at hne
  rcases hf : ts.find? (fun t => t.kw = bkw) with _ | t <;> rw [hf] at hne
  · simp at hne
  · have ht : t ∈ ts := List.mem_of_find?_eq_some hf
    have hkw : t.kw = bkw := by
      have := List.find?_some hf
      simpa using this
    rw [← hkw]
    exact (hOK t ht).1

/-- Forward evaluation of one `mutate` op on a well-formed bucket, when
the op changes the IntSet: the recorded change and the written bucket. -/
theorem mutOp_eval (acc : MutAcc) (ts : List VTriple) (ms : Finset Nat) (o : SetOp2)
    (kw : String) (idx : Nat) (w : Finset Nat)
    (hwf : blobAtD acc.eng idx = serBucket ts) (hOK : ∀ t ∈ ts, TripleOK t)
    (hw : w = (match o with
      | SetOp2.or => (bFind ts (strBytes kw)).2.getD ∅ ∪ ms
      | SetOp2.sub => (bFind ts (strBytes kw)).2.getD ∅ \ ms))
    (hch : (bFind ts (strBytes kw)).2.getD ∅ ≠ w)
    (hk16 : (strBytes kw).length < 2 ^ 16)
    (henc : (dumbEncodeBin (some w)).length < 2 ^ 32) :
    mutOp acc (MScope.ids ms) o kw idx = .ok
      { cset := acc.cset ∪ ((((bFind ts (strBytes kw)).2.getD ∅ \ w) ∪
          (w \ (bFind ts (strBytes kw)).2.getD ∅)) ∩ ms),
        changes := acc.changes ++ [⟨kw, idx,
          dumbEncodeAsc ((bFind ts (strBytes kw)).2.getD ∅ ∩ ms),
          dumbEncodeAsc (w ∩ ms)⟩],
        mutations := acc.mutations + 1,
        eng := rset acc.eng idx (RecVal.blob (serBucket
          (applySet ts (strBytes kw) (some w) (bFind ts (strBytes kw)).1))) } := by
  have hpg : pyGetFull (blobAtD acc.eng idx) (strBytes kw)
      = some (bFind ts (strBytes kw)) := by
    rw [hwf]
    exact pyGetFull_serBucket ts _ hOK
  have hps : pySet (blobAtD acc.eng idx) (strBytes kw) (some w) [] none none =
      some (serBucket (applySet ts (strBytes kw) (some w)
        (bFind ts (strBytes kw)).1)) := by
    rw [hwf]
    rw [pySet_serBucket_none ts (strBytes kw) (some w) [] hOK hk16 (by simp) henc]
    rw [if_neg (show ¬(([] : Bytes) ≠ []) by simp)]
  rcases o with _ | _ <;> simp only at hw <;> subst hw
  · simp only [mutOp, hpg, ne_eq]
    rw [if_pos (by simpa using hch)]
    rw [hps]
  · simp only [mutOp, hpg, ne_eq]
    rw [if_pos (by simpa using hch)]
    rw [hps]

theorem fs_or_undo (v m : Finset Nat) : (v ∪ m) \ (m \ v) = v := by
  ext x
  simp
  tauto

theorem fs_or_i_empty (v m : Finset Nat) : (v ∩ m) \ ((v ∪ m) ∩ m) = ∅ := by
  ext x
  simp

theorem fs_or_sub (v m : Finset Nat) : ((v ∪ m) ∩ m) \ (v ∩ m) = m \ v := by
  ext x
  simp

theorem fs_or_nonempty (v m : Finset Nat) (h : v ≠ v ∪ m) : m \ v ≠ ∅ := by
  intro he
  exact h (Finset.union_eq_left.mpr (Finset.sdiff_eq_empty_iff_subset.mp he)).symm

theorem fs_or_union_nonempty (v m : Finset Nat) (h : m \ v ≠ ∅) : v ∪ m ≠ ∅ := by
  intro he
  apply h
  rw [Finset.eq_empty_iff_forall_not_mem] at he ⊢
  intro x hx
  exact he x (Finset.mem_union_right _ (Finset.mem_sdiff.mp hx).1)

theorem fs_or_ne (v m : Finset Nat) (h : v ≠ v ∪ m) : v ∪ m ≠ (v ∪ m) \ (m \ v) := by
  rw [fs_or_undo]
  exact fun h2 => h h2.symm

theorem fs_sub_undo (v m : Finset Nat) : (v \ m) ∪ (v ∩ m) = v := by
  ext x
  simp
  tauto

theorem fs_sub_i (v m : Finset Nat) : (v ∩ m) \ ((v \ m) ∩ m) = v ∩ m := by
  ext x
  simp

theorem fs_sub_ov_empty (v m : Finset Nat) : ((v \ m) ∩ m) \ (v ∩ m) = ∅ := by
  ext x
  simp

theorem fs_sub_nonempty (v m : Finset Nat) (h : v ≠ v \ m) : v ∩ m ≠ ∅ := by
  intro he
  exact h (Finset.sdiff_eq_self_iff_disjoint.mpr
    (Finset.disjoint_iff_inter_eq_empty.mpr he)).symm

theorem fs_sub_v_nonempty (v m : Finset Nat) (h : v ∩ m ≠ ∅) : v ≠ ∅ := by
  intro he
  apply h
  rw [he]
  simp

theorem fs_sub_ne (v m : Finset Nat) (h : v ≠ v \ m) : v \ m ≠ (v \ m) ∪ (v ∩ m) := by
  rw [fs_sub_undo]
  exact fun h2 => h h2.symm

theorem obsAt_of_serBucket (e : Engine) (idx : Nat) (ts : List VTriple) (bkw : Bytes)
    (hwf : blobAtD e idx = serBucket ts) (hOK : ∀ t ∈ ts, TripleOK t) :
    obsAt e idx bkw = some ((bFind ts bkw).1, (bFind ts bkw).2.getD ∅) := by
  unfold obsAt
  rw [hwf, pyGetFull_serBucket ts bkw hOK, Option.map_some']
  rw [normalize_getD]

/-- One `mutate` op on a well-formed bucket, observed: the op rewrites the
keyword's IntSet to the computed value, keeps its comment, and leaves
every other record and every other keyword of the bucket unchanged. -/
theorem mutOp_obs (acc' : MutAcc) (ts2 : List VTriple) (kw : String) (idx : Nat)
    (ou : SetOp2) (S w2 : Finset Nat)
    (hwf2 : blobAtD acc'.eng idx = serBucket ts2) (hOK2 : ∀ t ∈ ts2, TripleOK t)
    (hnd2 : (bKws ts2).Nodup)
    (hw2 : w2 = (match ou with
      | SetOp2.or => (bFind ts2 (strBytes kw)).2.getD ∅ ∪ S
      | SetOp2.sub => (bFind ts2 (strBytes kw)).2.getD ∅ \ S))
    (hch2 : (bFind ts2 (strBytes kw)).2.getD ∅ ≠ w2)
    (hk16 : (strBytes kw).length < 2 ^ 16)
    (henc2 : (dumbEncodeBin (some w2)).length < 2 ^ 32) :
    ∃ acc3, mutOp acc' (MScope.ids S) ou kw idx = .ok acc3 ∧
      obsAt acc3.eng idx (strBytes kw) = some ((bFind ts2 (strBytes kw)).1, w2) ∧
      (∀ j, j ≠ idx → blobAtD acc3.eng j = blobAtD acc'.eng j) ∧
      (∀ bk2, bk2 ≠ strBytes kw → obsAt acc3.eng idx bk2 = obsAt acc'.eng idx bk2) := by
  have heval := mutOp_eval acc' ts2 S ou kw idx w2 hwf2 hOK2 hw2 hch2 hk16 henc2
  have hOK3 : ∀ t ∈ applySet ts2 (strBytes kw) (some w2) (bFind ts2 (strBytes kw)).1,
      TripleOK t :=
    applySet_TripleOK _ _ _ _ hOK2 ⟨hk16, bFind_com_length ts2 _ hOK2, henc2⟩
  refine ⟨_, heval, ?_, ?_, ?_⟩
  · unfold obsAt
    rw [blobAtD_rset_self]
    rw [pyGetFull_serBucket _ _ hOK3, Option.map_some']
    rw [bFind_applySet_self _ _ _ _ hnd2]
    by_cases hkeep : (bFind ts2 (strBytes kw)).1 ≠ [] ∨ isetTruthy (some w2)
    · rw [if_pos hkeep]
      simp only [normalize_getD, Option.getD_some]
      by_cases htr : isetTruthy (some w2) = true
      · rw [if_pos htr]
      · rw [if_neg htr]
        rw [show w2 = ∅ by simpa [isetTruthy] using htr]
    · rw [if_neg hkeep]
      push_neg at hkeep
      have h2 : w2 = ∅ := by simpa [isetTruthy] using hkeep.2
      rw [hkeep.1, h2]
      simp [isetTruthy]
  · intro j hj
    exact blobAtD_rset_ne _ _ _ _ hj
  · intro bk2 hbk2
    unfold obsAt
    rw [blobAtD_rset_self, hwf2]
    rw [pyGetFull_serBucket _ _ hOK3, pyGetFull_serBucket _ _ hOK2]
    rw [bFind_applySet_other _ _ _ _ _ hbk2 hnd2]

/-- C1 (amended): a `mutate` op on an IntSet scope that changes a
keyword's posting list records a change whose `iset`/`oset` blobs decode
to the scoped before/after bits; `historic_mutations(undo=True)` builds
from it exactly the swapped-role mutations `add_bits = iset − oset` and
`sub_bits = oset − iset` (for a single op one of the two is empty), and
applying that swapped op at the same resolved index restores the
keyword's Python-visible value — its comment and the IntSet `get`
reports — in the touched bucket, leaving every other record and every
other keyword of the bucket unchanged.  Only the value is restored: the
byte content of the bucket is in general NOT restored (the rewrite moves
the keyword's triple to the end of the blob), which refutes the claim's
byte-for-byte reading. -/
theorem mutate_undo_restores_value (acc : MutAcc) (ts : List VTriple)
    (ms : Finset Nat) (o : SetOp2) (kw : String) (idx : Nat) (acc2 : MutAcc)
    (c : Change)
    (hwf : blobAtD acc.eng idx = serBucket ts) (hOK : ∀ t ∈ ts, TripleOK t)
    (hnd : (bKws ts).Nodup)
    (hm : mutOp acc (MScope.ids ms) o kw idx = .ok acc2)
    (hrec : acc2.changes = acc.changes ++ [c]) :
    ∃ i ov : Finset Nat,
      dumbDecode c.encIset = some (some i) ∧
      dumbDecode c.encOset = some (some ov) ∧
      c.kw = kw ∧ c.idx = idx ∧
      buildMutations true [c] = some (
        (if i \ ov ≠ ∅ then [(MScope.ids (i \ ov), [(PyOp.plus, kw)])] else []) ++
        (if ov \ i ≠ ∅ then [(MScope.ids (ov \ i), [(PyOp.minus, kw)])] else [])) ∧
      (o = SetOp2.or → i \ ov = ∅ ∧ ov \ i ≠ ∅) ∧
      (o = SetOp2.sub → ov \ i = ∅ ∧ i \ ov ≠ ∅) ∧
      (∀ acc' : MutAcc, acc'.eng = acc2.eng →
        ∃ acc3,
          (match o with
            | SetOp2.or => mutOp acc' (MScope.ids (ov \ i)) SetOp2.sub kw idx
            | SetOp2.sub => mutOp acc' (MScope.ids (i \ ov)) SetOp2.or kw idx)
            = .ok acc3 ∧
          obsAt acc3.eng idx (strBytes kw) = obsAt acc.eng idx (strBytes kw) ∧
          (∀ j, j ≠ idx → blobAtD acc3.eng j = blobAtD acc2.eng j) ∧
          (∀ bk2, bk2 ≠ strBytes kw →
            obsAt acc3.eng idx bk2 = obsAt acc2.eng idx bk2)) := by
  have hpg : pyGetFull (blobAtD acc.eng idx) (strBytes kw)
      = some (bFind ts (strBytes kw)) := by
    rw [hwf]
    exact pyGetFull_serBucket ts _ hOK
  rcases o with _ | _
  · -- forward union
    simp only [mutOp, hpg, ne_eq] at hm
    by_cases hch : (bFind ts (strBytes kw)).2.getD ∅
        = (bFind ts (strBytes kw)).2.getD ∅ ∪ ms
    · rw [if_neg (not_not.mpr hch)] at hm
      cases hm
      exact absurd hrec (by simp)
    · rw [if_pos hch] at hm
      rw [hwf] at hm
      rcases hps : pySet (serBucket ts) (strBytes kw)
          (some ((bFind ts (strBytes kw)).2.getD ∅ ∪ ms)) [] none none with _ | b2 <;>
        simp only [hps] at hm
      · cases hm
      · cases hm
        have hc : c = ⟨kw, idx,
            dumbEncodeAsc ((bFind ts (strBytes kw)).2.getD ∅ ∩ ms),
            dumbEncodeAsc (((bFind ts (strBytes kw)).2.getD ∅ ∪ ms) ∩ ms)⟩ := by
          have h2 : acc.changes ++ [(⟨kw, idx,
              dumbEncodeAsc ((bFind ts (strBytes kw)).2.getD ∅ ∩ ms),
              dumbEncodeAsc (((bFind ts (strBytes kw)).2.getD ∅ ∪ ms) ∩ ms)⟩ : Change)]
              = acc.changes ++ [c] := hrec
          simpa using (List.append_cancel_left h2).symm
        subst hc
        obtain ⟨hb2, hOK2⟩ := pySet_none_inv ts (strBytes kw)
          (some ((bFind ts (strBytes kw)).2.getD ∅ ∪ ms)) hOK b2 hps
        have hkeep2 : (bFind ts (strBytes kw)).1 ≠ [] ∨
            isetTruthy (some ((bFind ts (strBytes kw)).2.getD ∅ ∪ ms)) := by
          right
          simpa [isetTruthy] using
            fs_or_union_nonempty _ _ (fs_or_nonempty _ _ hch)
        have hbf2 : bFind (applySet ts (strBytes kw)
            (some ((bFind ts (strBytes kw)).2.getD ∅ ∪ ms))
            (bFind ts (strBytes kw)).1) (strBytes kw)
            = ((bFind ts (strBytes kw)).1,
               some ((bFind ts (strBytes kw)).2.getD ∅ ∪ ms)) := by
          rw [bFind_applySet_self _ _ _ _ hnd, if_pos hkeep2]
        have hnd2 := applySet_nodup ts (strBytes kw)
          (some ((bFind ts (strBytes kw)).2.getD ∅ ∪ ms))
          (bFind ts (strBytes kw)).1 hnd
        have hmem : (⟨strBytes kw, (bFind ts (strBytes kw)).1,
            some ((bFind ts (strBytes kw)).2.getD ∅ ∪ ms)⟩ : VTriple) ∈
            applySet ts (strBytes kw)
              (some ((bFind ts (strBytes kw)).2.getD ∅ ∪ ms))
              (bFind ts (strBytes kw)).1 := by
          unfold applySet
          rw [if_pos hkeep2]
          simp
        have hk16 : (strBytes kw).length < 2 ^ 16 := (hOK2 _ hmem).1
        refine ⟨(bFind ts (strBytes kw)).2.getD ∅ ∩ ms,
          ((bFind ts (strBytes kw)).2.getD ∅ ∪ ms) ∩ ms, ?_, ?_, rfl, rfl,
          ?_, ?_, ?_, ?_⟩
        · exact dumbDecode_dumbEncodeBin (some ((bFind ts (strBytes kw)).2.getD ∅ ∩ ms))
        · exact dumbDecode_dumbEncodeBin
            (some (((bFind ts (strBytes kw)).2.getD ∅ ∪ ms) ∩ ms))
        · simp [buildMutations, dumbEncodeAsc, dumbDecode_dumbEncodeBin]
        · intro _
          exact ⟨fs_or_i_empty _ _, by
            rw [fs_or_sub]
            exact fs_or_nonempty _ _ hch⟩
        · intro h
          cases h
        · intro acc' hacc'
          have hwf2 : blobAtD acc'.eng idx = serBucket (applySet ts (strBytes kw)
              (some ((bFind ts (strBytes kw)).2.getD ∅ ∪ ms))
              (bFind ts (strBytes kw)).1) := by
            rw [hacc']
            show blobAtD (rset acc.eng idx (RecVal.blob b2)) idx = _
            rw [blobAtD_rset_self, hb2]
          have hw2 : (bFind ts (strBytes kw)).2.getD ∅ =
              (bFind (applySet ts (strBytes kw)
                (some ((bFind ts (strBytes kw)).2.getD ∅ ∪ ms))
                (bFind ts (strBytes kw)).1) (strBytes kw)).2.getD ∅ \
              ((((bFind ts (strBytes kw)).2.getD ∅ ∪ ms) ∩ ms) \
                ((bFind ts (strBytes kw)).2.getD ∅ ∩ ms)) := by
            rw [hbf2, fs_or_sub]
            simp only [Option.getD_some]
            exact (fs_or_undo _ _).symm
          have hch2 : (bFind (applySet ts (strBytes kw)
              (some ((bFind ts (strBytes kw)).2.getD ∅ ∪ ms))
              (bFind ts (strBytes kw)).1) (strBytes kw)).2.getD ∅ ≠
              (bFind ts (strBytes kw)).2.getD ∅ := by
            rw [hbf2]
            simp only [Option.getD_some]
            exact fun h => hch h.symm
          have henc2 : (dumbEncodeBin (some ((bFind ts (strBytes kw)).2.getD ∅))).length
              < 2 ^ 32 := bFind_getD_enc_length ts _ hOK
          obtain ⟨acc3, hmo, hobs, hfj, hfk⟩ := mutOp_obs acc'
            (applySet ts (strBytes kw)
              (some ((bFind ts (strBytes kw)).2.getD ∅ ∪ ms))
              (bFind ts (strBytes kw)).1)
            kw idx SetOp2.sub
            ((((bFind ts (strBytes kw)).2.getD ∅ ∪ ms) ∩ ms) \
              ((bFind ts (strBytes kw)).2.getD ∅ ∩ ms))
            ((bFind ts (strBytes kw)).2.getD ∅)
            hwf2 hOK2 hnd2 hw2 hch2 hk16 henc2
          refine ⟨acc3, hmo, ?_, ?_, ?_⟩
          · rw [hobs, obsAt_of_serBucket acc.eng idx ts (strBytes kw) hwf hOK, hbf2]
          · intro j hj
            rw [hfj j hj, hacc']
          · intro bk2 hk2
            rw [hfk bk2 hk2, hacc']
  · -- forward subtraction
    simp only [mutOp, hpg, ne_eq] at hm
    by_cases hch : (bFind ts (strBytes kw)).2.getD ∅
        = (bFind ts (strBytes kw)).2.getD ∅ \ ms
    · rw [if_neg (not_not.mpr hch)] at hm
      cases hm
      exact absurd hrec (by simp)
    · rw [if_pos hch] at hm
      rw [hwf] at hm
      rcases hps : pySet (serBucket ts) (strBytes kw)
          (some ((bFind ts (strBytes kw)).2.getD ∅ \ ms)) [] none none with _ | b2 <;>
        simp only [hps] at hm
      · cases hm
      · cases hm
        have hc : c = ⟨kw, idx,
            dumbEncodeAsc ((bFind ts (strBytes kw)).2.getD ∅ ∩ ms),
            dumbEncodeAsc (((bFind ts (strBytes kw)).2.getD ∅ \ ms) ∩ ms)⟩ := by
          have h2 : acc.changes ++ [(⟨kw, idx,
              dumbEncodeAsc ((bFind ts (strBytes kw)).2.getD ∅ ∩ ms),
              dumbEncodeAsc (((bFind ts (strBytes kw)).2.getD ∅ \ ms) ∩ ms)⟩ : Change)]
              = acc.changes ++ [c] := hrec
          simpa using (List.append_cancel_left h2).symm
        subst hc
        obtain ⟨hb2, hOK2⟩ := pySet_none_inv ts (strBytes kw)
          (some ((bFind ts (strBytes kw)).2.getD ∅ \ ms)) hOK b2 hps
        have hk16 : (strBytes kw).length < 2 ^ 16 :=
          bkw_len_of_v0_ne ts (strBytes kw) hOK hnd
            (fs_sub_v_nonempty _ _ (fs_sub_nonempty _ _ hch))
        have hbf2a : (bFind (applySet ts (strBytes kw)
            (some ((bFind ts (strBytes kw)).2.getD ∅ \ ms))
            (bFind ts (strBytes kw)).1) (strBytes kw)).2.getD ∅
            = (bFind ts (strBytes kw)).2.getD ∅ \ ms := by
          rw [bFind_applySet_self _ _ _ _ hnd]
          by_cases hkeep : (bFind ts (strBytes kw)).1 ≠ [] ∨
              isetTruthy (some ((bFind ts (strBytes kw)).2.getD ∅ \ ms))
          · rw [if_pos hkeep]
            rfl
          · rw [if_neg hkeep]
            push_neg at hkeep
            have h2 : (bFind ts (strBytes kw)).2.getD ∅ \ ms = ∅ := by
              simpa [isetTruthy] using hkeep.2
            simp [h2]
        have hbf2b : (bFind (applySet ts (strBytes kw)
            (some ((bFind ts (strBytes kw)).2.getD ∅ \ ms))
            (bFind ts (strBytes kw)).1) (strBytes kw)).1
            = (bFind ts (strBytes kw)).1 := by
          rw [bFind_applySet_self _ _ _ _ hnd]
          by_cases hkeep : (bFind ts (strBytes kw)).1 ≠ [] ∨
              isetTruthy (some ((bFind ts (strBytes kw)).2.getD ∅ \ ms))
          · rw [if_pos hkeep]
          · rw [if_neg hkeep]
            push_neg at hkeep
            simp [hkeep.1]
        have hnd2 := applySet_nodup ts (strBytes kw)
          (some ((bFind ts (strBytes kw)).2.getD ∅ \ ms))
          (bFind ts (strBytes kw)).1 hnd
        refine ⟨(bFind ts (strBytes kw)).2.getD ∅ ∩ ms,
          ((bFind ts (strBytes kw)).2.getD ∅ \ ms) ∩ ms, ?_, ?_, rfl, rfl,
          ?_, ?_, ?_, ?_⟩
        · exact dumbDecode_dumbEncodeBin (some ((bFind ts (strBytes kw)).2.getD ∅ ∩ ms))
        · exact dumbDecode_dumbEncodeBin
            (some (((bFind ts (strBytes kw)).2.getD ∅ \ ms) ∩ ms))
        · simp [buildMutations, dumbEncodeAsc, dumbDecode_dumbEncodeBin]
        · intro h
          cases h
        · intro _
          exact ⟨fs_sub_ov_empty _ _, by
            rw [fs_sub_i]
            exact fs_sub_nonempty _ _ hch⟩
        · intro acc' hacc'
          have hwf2 : blobAtD acc'.eng idx = serBucket (applySet ts (strBytes kw)
              (some ((bFind ts (strBytes kw)).2.getD ∅ \ ms))
              (bFind ts (strBytes kw)).1) := by
            rw [hacc']
            show blobAtD (rset acc.eng idx (RecVal.blob b2)) idx = _
            rw [blobAtD_rset_self, hb2]
          have hw2 : (bFind ts (strBytes kw)).2.getD ∅ =
              (bFind (applySet ts (strBytes kw)
                (some ((bFind ts (strBytes kw)).2.getD ∅ \ ms))
                (bFind ts (strBytes kw)).1) (strBytes kw)).2.getD ∅ ∪
              (((bFind ts (strBytes kw)).2.getD ∅ ∩ ms) \
                (((bFind ts (strBytes kw)).2.getD ∅ \ ms) ∩ ms)) := by
            rw [hbf2a, fs_sub_i]
            exact (fs_sub_undo _ _).symm
          have hch2 : (bFind (applySet ts (strBytes kw)
              (some ((bFind ts (strBytes kw)).2.getD ∅ \ ms))
              (bFind ts (strBytes kw)).1) (strBytes kw)).2.getD ∅ ≠
              (bFind ts (strBytes kw)).2.getD ∅ := by
            rw [hbf2a]
            exact fun h => hch h.symm
          have henc2 : (dumbEncodeBin (some ((bFind ts (strBytes kw)).2.getD ∅))).length
              < 2 ^ 32 := bFind_getD_enc_length ts _ hOK
          obtain ⟨acc3, hmo, hobs, hfj, hfk⟩ := mutOp_obs acc'
            (applySet ts (strBytes kw)
              (some ((bFind ts (strBytes kw)).2.getD ∅ \ ms))
              (bFind ts (strBytes kw)).1)
            kw idx SetOp2.or
            (((bFind ts (strBytes kw)).2.getD ∅ ∩ ms) \
              (((bFind ts (strBytes kw)).2.getD ∅ \ ms) ∩ ms))
            ((bFind ts (strBytes kw)).2.getD ∅)
            hwf2 hOK2 hnd2 hw2 hch2 hk16 henc2
          refine ⟨acc3, hmo, ?_, ?_, ?_⟩
          · rw [hobs, obsAt_of_serBucket acc.eng idx ts (strBytes kw) hwf hOK, hbf2b]
          · intro j hj
            rw [hfj j hj, hacc']
          · intro bk2 hk2
            rw [hfk bk2 hk2, hacc']

/-- The bucket for the C1 instances: `aa ↦ {1, 2}` then `bb ↦ {3}`. -/
def tsC1 : List VTriple :=
  [⟨strBytes "aa", [], some ({1, 2} : Finset Nat)⟩,
   ⟨strBytes "bb", [], some ({3} : Finset Nat)⟩]

/-- Engine with that bucket at the L1 slot 2001 (`aa` registered in the
key map; `version:`/`vdate:` keywords hash into the L2 slots 2002-2003
and never touch 2001). -/
def engC1 : Engine :=
  ⟨[(2001, RecVal.blob (serBucket tsC1))], [(hashKey "aa", 2001)],
   1, 2, none, 0, 4, ∅, [], [], 25⟩

def mutC1 : List (MScope × List (PyOp × String)) :=
  [(MScope.ids {2}, [(PyOp.minus, "aa")])]

/-- The recorded forward run: `mutate(m, record_history='undo-test')`. -/
def pipeC1a : MutateRes × Engine := getOk (mutate engC1 mutC1 (some "undo-test") "" 7 0)

/-- The undo list `historic_mutations('3e9-7', undo=True)` builds. -/
def mutsC1 : List (MScope × List (PyOp × String)) :=
  getOk (historicMutations pipeC1a.2 "3e9-7" true false)

/-- The undo run. -/
def pipeC1b : MutateRes × Engine := getOk (mutate pipeC1a.2 mutsC1 none "" 0 1)

set_option maxRecDepth 100000 in
/-- C1 counterexample: the full pipeline — `mutate` with
`record_history`, `historic_mutations(…, undo=True)`, `mutate` again —
restores the VALUE of every keyword of the touched bucket (`aa` back to
`{1, 2}` with its comment, `bb` untouched) but NOT its byte content: the
undone bucket blob differs from the original byte string because the
rewrite appended `aa`'s triple behind `bb`'s, although no
`version:`/`vdate:` keyword ever touches record 2001 (they hash into
2002-2003). -/
theorem undo_not_byte_identical :
    mutate engC1 mutC1 (some "undo-test") "" 7 0 = .ok pipeC1a ∧
    historicMutations pipeC1a.2 "3e9-7" true false = .ok mutsC1 ∧
    mutate pipeC1a.2 mutsC1 none "" 0 1 = .ok pipeC1b ∧
    obsAt pipeC1b.2 2001 (strBytes "aa") = obsAt engC1 2001 (strBytes "aa") ∧
    obsAt pipeC1b.2 2001 (strBytes "bb") = obsAt engC1 2001 (strBytes "bb") ∧
    getItem pipeC1b.2 "aa" = .ok ({1, 2} : Finset Nat) ∧
    blobAtD pipeC1b.2 2001 ≠ blobAtD engC1 2001 := by
  decide

instance : Inhabited MutAcc := ⟨⟨∅, [], 0, default⟩⟩

def accC1a : MutAcc := ⟨∅, [], 0, engC1⟩

def accC1b : MutAcc := getOk (mutOp accC1a (MScope.ids {2}) SetOp2.sub "aa" 2001)

def chC1 : Change := (accC1b.changes.head?).getD ⟨"", 0, [], []⟩

set_option maxRecDepth 100000 in
/-- Witness for the C1 theorem: the recorded subtraction of `{2}` from
`aa` on `engC1`. -/
theorem mutate_undo_restores_value_witness :
    (blobAtD accC1a.eng 2001 = serBucket tsC1 ∧ (∀ t ∈ tsC1, TripleOK t) ∧
      (bKws tsC1).Nodup ∧
      mutOp accC1a (MScope.ids {2}) SetOp2.sub "aa" 2001 = .ok accC1b ∧
      accC1b.changes = accC1a.changes ++ [chC1]) ∧
    (∃ i ov : Finset Nat,
      dumbDecode chC1.encIset = some (some i) ∧
      dumbDecode chC1.encOset = some (some ov) ∧
      chC1.kw = "aa" ∧ chC1.idx = 2001 ∧
      buildMutations true [chC1] = some (
        (if i \ ov ≠ ∅ then [(MScope.ids (i \ ov), [(PyOp.plus, "aa")])] else []) ++
        (if ov \ i ≠ ∅ then [(MScope.ids (ov \ i), [(PyOp.minus, "aa")])] else [])) ∧
      (SetOp2.sub = SetOp2.or → i \ ov = ∅ ∧ ov \ i ≠ ∅) ∧
      (SetOp2.sub = SetOp2.sub → ov \ i = ∅ ∧ i \ ov ≠ ∅) ∧
      (∀ acc' : MutAcc, acc'.eng = accC1b.eng →
        ∃ acc3,
          (match SetOp2.sub with
            | SetOp2.or => mutOp acc' (MScope.ids (ov \ i)) SetOp2.sub "aa" 2001
            | SetOp2.sub => mutOp acc' (MScope.ids (i \ ov)) SetOp2.or "aa" 2001)
            = .ok acc3 ∧
          obsAt acc3.eng 2001 (strBytes "aa") = obsAt accC1a.eng 2001 (strBytes "aa") ∧
          (∀ j, j ≠ 2001 → blobAtD acc3.eng j = blobAtD accC1b.eng j) ∧
          (∀ bk2, bk2 ≠ strBytes "aa" →
            obsAt acc3.eng 2001 bk2 = obsAt accC1b.eng 2001 bk2))) :=
  ⟨⟨by decide, by decide, by decide, by decide, by decide⟩,
   mutate_undo_restores_value accC1a tsC1 {2} SetOp2.sub "aa" 2001 accC1b chC1
     (by decide) (by decide) (by decide) (by decide) (by decide)⟩

end Moggie
